import Mathlib

/-!
Verification of the ADF (rich-text document tree) transformation layer of
`JiraClient.py`:

* `_extract_text_from_adf` (JiraClient.py, lines 150-169), embedded here as
  `extract_text_from_adf`;
* `_adf_replace_media_with_attachment_links` (JiraClient.py, lines 517-607),
  embedded here as `adf_replace_media_with_attachment_links` with its inner
  helpers `make_link_paragraph` and `transform`;
* the CLI call site of `clone_issue_with_media_upload`
  (jira-clone-ticket-new.py, lines 303-312) for the keyword-binding claim.

The Python values flowing through these functions are JSON-like trees
(dicts with string keys in insertion order, lists, strings, ints, bools,
None).  They are embedded as the mutual inductive family `JVal` / `JList` /
`JFields`; a `JFields` value is the insertion-ordered item list of a Python
dict (Python dicts have unique keys, so key lookup by first match coincides
with dict lookup).  Python operations that can raise are modelled in
`Except PyErr`.
-/

mutual
/-- A Python/JSON value as handled by the ADF helpers. -/
inductive JVal : Type where
  | str (s : String)
  | num (n : Int)
  | bool (b : Bool)
  | null
  | arr (elems : JList)
  | obj (fields : JFields)
  deriving DecidableEq
/-- A Python list of such values. -/
inductive JList : Type where
  | nil
  | cons (hd : JVal) (tl : JList)
  deriving DecidableEq
/-- The items of a Python dict, in insertion order. -/
inductive JFields : Type where
  | nil
  | cons (key : String) (val : JVal) (tl : JFields)
  deriving DecidableEq
end

/-- Python exception kinds raised by the modelled code. -/
inductive PyErr : Type where
  | typeError
  | keyError
  | indexError
  | attributeError
  deriving DecidableEq

/-- `d.get(key)` on a dict: first (= unique) matching key. -/
def pyGet : JFields → String → Option JVal
  | .nil, _ => none
  | .cons k v tl, key => if k = key then some v else pyGet tl key

/-- Python truthiness of a value (`bool(v)`). -/
def pyTruthy : JVal → Bool
  | .str s => s ≠ ""
  | .num n => n ≠ 0
  | .bool b => b
  | .null => false
  | .arr .nil => false
  | .arr (.cons _ _) => true
  | .obj .nil => false
  | .obj (.cons _ _ _) => true

/-- List concatenation on `JList`. -/
def JList.append : JList → JList → JList
  | .nil, l => l
  | .cons v tl, l => .cons v (tl.append l)

/-- Dict-item concatenation (used for `setdefault` adding a key at the end). -/
def JFields.append : JFields → JFields → JFields
  | .nil, l => l
  | .cons k v tl, l => .cons k v (tl.append l)

/-- `d[key] = v` on a dict whose `key` is present: replace the value of the
first (= unique) occurrence, keeping insertion order. -/
def setField : JFields → String → JVal → JFields
  | .nil, _, _ => .nil
  | .cons k v tl, key, w => if k = key then .cons k w tl else .cons k v (setField tl key w)

/-- Lookup in the `filename_to_url` dict (string keys and values),
first-match on a unique-key item list. -/
def lookupStr : List (String × String) → String → Option String
  | [], _ => none
  | (k, u) :: rest, s => if k = s then some u else lookupStr rest s

mutual
/-- Python `str(v)`.  For strings it is the string itself, for scalars the
Python rendering; for containers the `repr` rendering (string escaping
inside `repr` is not modelled, which no claim depends on). -/
def pyStr : JVal → String
  | .str s => s
  | .num n => toString n
  | .bool b => if b then "True" else "False"
  | .null => "None"
  | .arr l => "[" ++ reprJList l ++ "]"
  | .obj fs => "\x7b" ++ reprJFields fs ++ "\x7d"
/-- Python `repr(v)` (approximate for strings: quotes, no escape handling). -/
def pyRepr : JVal → String
  | .str s => "'" ++ s ++ "'"
  | .num n => toString n
  | .bool b => if b then "True" else "False"
  | .null => "None"
  | .arr l => "[" ++ reprJList l ++ "]"
  | .obj fs => "\x7b" ++ reprJFields fs ++ "\x7d"
/-- Comma-joined `repr` of list elements. -/
def reprJList : JList → String
  | .nil => ""
  | .cons v .nil => pyRepr v
  | .cons v tl => pyRepr v ++ ", " ++ reprJList tl
/-- Comma-joined `repr` of dict items (keys rendered as string `repr`). -/
def reprJFields : JFields → String
  | .nil => ""
  | .cons k v .nil => "'" ++ k ++ "': " ++ pyRepr v
  | .cons k v tl => "'" ++ k ++ "': " ++ pyRepr v ++ ", " ++ reprJFields tl
end

/-- `node.get('type') in ('media', 'mediaSingle', 'mediaGroup')`:
the absent case (`None`) and non-string values compare unequal. -/
def isMediaTy : Option JVal → Bool
  | some (.str "media") => true
  | some (.str "mediaSingle") => true
  | some (.str "mediaGroup") => true
  | _ => false

mutual
/-- `_extract_text_from_adf` (JiraClient.py lines 150-169).  A dict of a
media-family type contributes nothing; a `text`-typed dict with a `text`
key contributes `str(node['text'])` and then, like every dict, the
extraction of all its values in insertion order; a list contributes its
elements in order; anything else contributes `""`.
(`"".join(filter(None, texts))` equals plain concatenation of `texts`,
since dropping empty strings does not change a join on `""`.) -/
def extract_text_from_adf : JVal → String
  | .obj fs =>
    if isMediaTy (pyGet fs "type") then ""
    else
      (match pyGet fs "type", pyGet fs "text" with
       | some (.str "text"), some tv => pyStr tv
       | _, _ => "")
      ++ extractFields fs
  | .arr l => extractList l
  | _ => ""
/-- The `for child in node` loop of the list branch. -/
def extractList : JList → String
  | .nil => ""
  | .cons v tl => extract_text_from_adf v ++ extractList tl
/-- The `for key, value in node.items()` loop. -/
def extractFields : JFields → String
  | .nil => ""
  | .cons _ v tl => extract_text_from_adf v ++ extractFields tl
end

mutual
/-- Modelled from the spec (claim C6 reference semantics): the list of the
`text` values of `text`-typed nodes lying outside media-family subtrees,
in document order (a node's own text before its fields, fields and list
elements in order). -/
def collectTexts : JVal → List String
  | .obj fs =>
    if isMediaTy (pyGet fs "type") then []
    else
      (match pyGet fs "type", pyGet fs "text" with
       | some (.str "text"), some tv => [pyStr tv]
       | _, _ => [])
      ++ collectTextsFields fs
  | .arr l => collectTextsList l
  | _ => []
/-- `collectTexts` over list elements. -/
def collectTextsList : JList → List String
  | .nil => []
  | .cons v tl => collectTexts v ++ collectTextsList tl
/-- `collectTexts` over dict values. -/
def collectTextsFields : JFields → List String
  | .nil => []
  | .cons _ v tl => collectTexts v ++ collectTextsFields tl
end

/-- `media.get('attrs', \x7b\x7d).get('fileName') or media.get('attrs', \x7b\x7d).get('name')`
(JiraClient.py lines 545, 552, 558).  `.get` on a non-dict raises
`AttributeError`; an absent key defaults (`attrs` to the empty dict, the
attribute names to `None`); `a or b` yields `a` when truthy, else `b`. -/
def getFilename : JVal → Except PyErr JVal
  | .obj gs =>
    match (pyGet gs "attrs").getD (.obj .nil) with
    | .obj as1 =>
      let fn := (pyGet as1 "fileName").getD .null
      if pyTruthy fn then .ok fn else .ok ((pyGet as1 "name").getD .null)
    | _ => .error .attributeError
  | _ => .error .attributeError

/-- `filename_to_url.get(filename)` (lines 546, 553, 559): a list or dict
key is unhashable (`TypeError`); non-string hashables never match the
string keys of the mapping. -/
def lookupUrl (m : List (String × String)) : JVal → Except PyErr (Option String)
  | .str s => .ok (lookupStr m s)
  | .arr _ => .error .typeError
  | .obj _ => .error .typeError
  | _ => .ok none

/-- `make_link_paragraph` (JiraClient.py lines 526-537).  `text = filename
or 'attachment'`; `if not url` (absent or empty URL) yields a plain text
paragraph, otherwise the text node carries a `link` mark with the URL. -/
def make_link_paragraph (filename : JVal) (url : Option String) : JVal :=
  let text := if pyTruthy filename then filename else .str "attachment"
  match url with
  | some u =>
    if u = "" then
      .obj (.cons "type" (.str "paragraph")
        (.cons "content" (.arr (.cons (.obj (.cons "type" (.str "text")
          (.cons "text" text .nil))) .nil)) .nil))
    else
      .obj (.cons "type" (.str "paragraph")
        (.cons "content" (.arr (.cons (.obj (.cons "type" (.str "text")
          (.cons "text" text
            (.cons "marks" (.arr (.cons (.obj (.cons "type" (.str "link")
              (.cons "attrs" (.obj (.cons "href" (.str u) .nil)) .nil))) .nil))
              .nil)))) .nil)) .nil))
  | none =>
    .obj (.cons "type" (.str "paragraph")
      (.cons "content" (.arr (.cons (.obj (.cons "type" (.str "text")
        (.cons "text" text .nil))) .nil)) .nil))

/-- One media reference rewritten to a paragraph:
`filename = ...; url = filename_to_url.get(filename);
make_link_paragraph(filename or 'image', url)` (lines 545-547, 552-554,
558-560). -/
def transformMediaItem (m : List (String × String)) (media : JVal) : Except PyErr JVal :=
  match getFilename media with
  | .error e => .error e
  | .ok filename =>
    match lookupUrl m filename with
    | .error e => .error e
    | .ok url =>
      .ok (make_link_paragraph (if pyTruthy filename then filename else .str "image") url)

/-- `v[0]` on a truthy value (line 544).  A non-empty list yields its head,
a non-empty string its first character, a dict raises `KeyError` (its keys
are strings, never the int `0`), an int or bool raises `TypeError`.  The
falsy cases cannot be reached (the call is guarded by truthiness); they
carry Python's actual subscript errors. -/
def subscript0 : JVal → Except PyErr JVal
  | .arr (.cons x _) => .ok x
  | .arr .nil => .error .indexError
  | .str s =>
    match s.data with
    | c :: _ => .ok (.str (String.mk [c]))
    | [] => .error .indexError
  | .obj _ => .error .keyError
  | .num _ => .error .typeError
  | .bool _ => .error .typeError
  | .null => .error .typeError

/-- Iterating a truthy value (`for media in node.get('content', []) or []`,
line 551): a list yields its elements, a string its characters, a dict its
keys; ints and bools are not iterable (`TypeError`). -/
def iterTruthy : JVal → Except PyErr JList
  | .arr l => .ok l
  | .str s => .ok (strChars s.data)
  | .obj gs => .ok (objKeys gs)
  | .num _ => .error .typeError
  | .bool _ => .error .typeError
  | .null => .error .typeError
where
  /-- The characters of a string, each as a one-character string. -/
  strChars : List Char → JList
    | [] => .nil
    | c :: cs => .cons (.str (String.mk [c])) (strChars cs)
  /-- The keys of a dict, in order. -/
  objKeys : JFields → JList
    | .nil => .nil
    | .cons k _ tl => .cons (.str k) (objKeys tl)

/-- The `mediaGroup` per-item loop (lines 550-554): left to right, the
first failing item raises. -/
def processGroup (m : List (String × String)) : JList → Except PyErr JList
  | .nil => .ok .nil
  | .cons x tl =>
    match transformMediaItem m x with
    | .error e => .error e
    | .ok p =>
      match processGroup m tl with
      | .error e => .error e
      | .ok ps => .ok (.cons p ps)

/-- The empty paragraph emitted for a `mediaGroup` with no produced
paragraphs (line 555). -/
def emptyParagraph : JVal :=
  .obj (.cons "type" (.str "paragraph")
    (.cons "content" (.arr (.cons (.obj (.cons "type" (.str "text")
      (.cons "text" (.str "") .nil))) .nil)) .nil))

mutual
/-- The inner `transform` of `_adf_replace_media_with_attachment_links`
(JiraClient.py lines 539-583).  A dict dispatches on its `type` value:
`mediaSingle` takes `content[0]` when `content` is truthy (else an empty
dict) and rewrites that one item; `mediaGroup` rewrites each contained
item, yielding the empty paragraph when none, else a `doc`-typed wrapper
of the produced paragraphs; `media` rewrites the node itself; every other
dict is rebuilt key by key in order, recursing into values, with list
values of the `content` key handled by the splicing loop
`transformContent`.  A list maps `transform` over its elements; any other
value is returned unchanged. -/
def transform (m : List (String × String)) : JVal → Except PyErr JVal
  | .obj fs =>
    match pyGet fs "type" with
    | some (.str "mediaSingle") =>
      let mediaStep : Except PyErr JVal :=
        match pyGet fs "content" with
        | some v => if pyTruthy v then subscript0 v else .ok (.obj .nil)
        | none => .ok (.obj .nil)
      (match mediaStep with
       | .error e => .error e
       | .ok media => transformMediaItem m media)
    | some (.str "mediaGroup") =>
      let c := (pyGet fs "content").getD (.arr .nil)
      let items : Except PyErr JList := if pyTruthy c then iterTruthy c else .ok .nil
      (match items with
       | .error e => .error e
       | .ok its =>
         match processGroup m its with
         | .error e => .error e
         | .ok paras =>
           match paras with
           | .nil => .ok emptyParagraph
           | .cons _ _ =>
             .ok (.obj (.cons "type" (.str "doc")
               (.cons "version" (.num 1) (.cons "content" (.arr paras) .nil)))))
    | some (.str "media") => transformMediaItem m (.obj fs)
    | _ =>
      match transformFields m fs with
      | .error e => .error e
      | .ok gs => .ok (.obj gs)
  | .arr l =>
    (match transformList m l with
     | .error e => .error e
     | .ok l2 => .ok (.arr l2))
  | v => .ok v
/-- `[transform(child) for child in node]` (line 581). -/
def transformList (m : List (String × String)) : JList → Except PyErr JList
  | .nil => .ok .nil
  | .cons x tl =>
    match transform m x with
    | .error e => .error e
    | .ok y =>
      match transformList m tl with
      | .error e => .error e
      | .ok ys => .ok (.cons y ys)
/-- The `for k, v in node.items()` rebuild loop (lines 563-579): each value
is transformed; a list value under the `content` key goes through the
splicing child loop instead. -/
def transformFields (m : List (String × String)) : JFields → Except PyErr JFields
  | .nil => .ok .nil
  | .cons k (.arr l) tl =>
    if k = "content" then
      match transformContent m l with
      | .error e => .error e
      | .ok l2 =>
        match transformFields m tl with
        | .error e => .error e
        | .ok tl2 => .ok (.cons k (.arr l2) tl2)
    else
      match transformList m l with
      | .error e => .error e
      | .ok l2 =>
        match transformFields m tl with
        | .error e => .error e
        | .ok tl2 => .ok (.cons k (.arr l2) tl2)
  | .cons k v tl =>
    match transform m v with
    | .error e => .error e
    | .ok w =>
      match transformFields m tl with
      | .error e => .error e
      | .ok tl2 => .ok (.cons k w tl2)
/-- The per-child loop over a `content` list (lines 567-574): a transformed
child that is a `doc`-typed dict with a list `content` is spliced (its
children extend the parent's list); every other result is appended. -/
def transformContent (m : List (String × String)) : JList → Except PyErr JList
  | .nil => .ok .nil
  | .cons c cs =>
    match transform m c with
    | .error e => .error e
    | .ok tc =>
      match transformContent m cs with
      | .error e => .error e
      | .ok tcs =>
        match tc with
        | .obj gs =>
          (match pyGet gs "type", pyGet gs "content" with
           | some (.str "doc"), some (.arr inner) => .ok (inner.append tcs)
           | _, _ => .ok (.cons tc tcs))
        | _ => .ok (.cons tc tcs)
end

/-- The trailing `"Attachments:"` paragraph (JiraClient.py line 605). -/
def attachmentsHeaderParagraph : JVal :=
  .obj (.cons "type" (.str "paragraph")
    (.cons "content" (.arr (.cons (.obj (.cons "type" (.str "text")
      (.cons "text" (.str "Attachments:") .nil))) .nil)) .nil))

/-- One trailing list item: `listItem` wrapping a paragraph wrapping a
linked `text` node with the filename and its URL (lines 593-603). -/
def attachmentListItem (name url : String) : JVal :=
  .obj (.cons "type" (.str "listItem")
    (.cons "content" (.arr (.cons (.obj (.cons "type" (.str "paragraph")
      (.cons "content" (.arr (.cons (.obj (.cons "type" (.str "text")
        (.cons "text" (.str name)
          (.cons "marks" (.arr (.cons (.obj (.cons "type" (.str "link")
            (.cons "attrs" (.obj (.cons "href" (.str url) .nil)) .nil))) .nil))
            .nil)))) .nil)) .nil))) .nil)) .nil))

/-- `[... for name, url in filename_to_url.items()]` (line 603): one item
per mapping entry, in order. -/
def attachmentItems : List (String × String) → JList
  | [] => .nil
  | (name, url) :: rest => .cons (attachmentListItem name url) (attachmentItems rest)

/-- The trailing `bulletList` node (lines 591-604). -/
def attachmentsListNode (m : List (String × String)) : JVal :=
  .obj (.cons "type" (.str "bulletList")
    (.cons "content" (.arr (attachmentItems m)) .nil))

/-- The two trailing nodes appended by the post-pass. -/
def trailingNodes (m : List (String × String)) : JList :=
  .cons attachmentsHeaderParagraph (.cons (attachmentsListNode m) .nil)

/-- The post-pass mutation (lines 605-606):
`transformed.setdefault('content', []).append(p); transformed['content'].append(lst)`.
When `content` is present with a list value the two nodes are appended to
it; when absent, `setdefault` adds `content` as a new last key holding the
two nodes; when present with a non-list value, `.append` on it raises
`AttributeError`. -/
def appendAttachments (m : List (String × String)) (fs : JFields) : Except PyErr JVal :=
  match pyGet fs "content" with
  | some (.arr l) => .ok (.obj (setField fs "content" (.arr (l.append (trailingNodes m)))))
  | some _ => .error .attributeError
  | none => .ok (.obj (fs.append (.cons "content" (.arr (trailingNodes m)) .nil)))

/-- `_adf_replace_media_with_attachment_links` (JiraClient.py lines
517-607), taking the `filename_to_url` mapping already built from the
copied attachments (line 524; that dict has unique, truthy keys and truthy
values by construction).  Runs `transform` over the whole tree, then, when
the result is a `doc`-typed dict and the mapping holds at least one
non-empty URL, appends the trailing attachments paragraph and bullet
list. -/
def adf_replace_media_with_attachment_links
    (m : List (String × String)) (adf_doc : JVal) : Except PyErr JVal :=
  match transform m adf_doc with
  | .error e => .error e
  | .ok t =>
    match t with
    | .obj fs =>
      (match pyGet fs "type" with
       | some (.str "doc") =>
         if ((m.map (fun p => p.2)).filter (fun u => u ≠ "")).isEmpty then .ok (.obj fs)
         else appendAttachments m fs
       | _ => .ok (.obj fs))
    | _ => .ok t

/-- The spec name of the rewrite operation (spec section 2). -/
def replace_media_with_links (m : List (String × String)) (adf_doc : JVal) :
    Except PyErr JVal :=
  adf_replace_media_with_attachment_links m adf_doc

/-- The positional-or-keyword parameter names of
`JiraClient.clone_issue_with_media_upload` (JiraClient.py line 609),
excluding the bound `self`; the signature declares no `**kwargs`. -/
def clone_issue_with_media_upload_params : List String :=
  ["source_issue_key", "project_key", "summary", "issue_type", "due_date",
   "labels", "link_type", "models"]

/-- The keyword-argument names passed by the CLI driver at the clone call
site (jira-clone-ticket-new.py lines 303-312). -/
def cli_clone_call_keywords : List String :=
  ["source_issue_key", "project_key", "summary", "issue_type", "due_date",
   "labels", "models", "parent_key"]

/-- Python call binding for a method without `**kwargs`: if any supplied
keyword is not a declared parameter, the call raises `TypeError` before
the method body starts executing. -/
def bindKeywords (params kwargs : List String) : Except PyErr Unit :=
  if kwargs.all (fun k => params.contains k) then .ok () else .error .typeError

/-- The splice trigger of the `content`-child loop (JiraClient.py line
571): a dict whose `type` is `doc` and whose `content` is a list. -/
def spliceable : JVal → Bool
  | .obj gs =>
    (match pyGet gs "type", pyGet gs "content" with
     | some (.str "doc"), some (.arr _) => true
     | _, _ => false)
  | _ => false

mutual
/-- Values on which `transform` acts as the identity: no dict anywhere has
a media-family `type`, and no dict sitting directly in a `content` list
triggers the splice.  `transform` always produces such values (see
`transform_stable`) and fixes exactly them (see `transform_of_stable`). -/
def stableV : JVal → Bool
  | .obj fs => !isMediaTy (pyGet fs "type") && stableF fs
  | .arr l => stableL l
  | _ => true
/-- `stableV` over plain list elements. -/
def stableL : JList → Bool
  | .nil => true
  | .cons v tl => stableV v && stableL tl
/-- `stableV` over dict values, with `content` lists held to the stronger
no-splice condition. -/
def stableF : JFields → Bool
  | .nil => true
  | .cons k (.arr l) tl =>
    if k = "content" then stableContentL l && stableF tl
    else stableL l && stableF tl
  | .cons _ v tl => stableV v && stableF tl
/-- Elements of a `content` list: stable and not splice-triggering. -/
def stableContentL : JList → Bool
  | .nil => true
  | .cons v tl => stableV v && !spliceable v && stableContentL tl
end

/-- A value with no mutable-container structure (not a list or dict). -/
def isAtom : JVal → Bool
  | .arr _ => false
  | .obj _ => false
  | _ => true

theorem transform_atom (m : List (String × String)) (v : JVal) (h : isAtom v = true) :
    transform m v = .ok v := by
  cases v <;> simp [isAtom] at h <;> simp [transform]

theorem lookupUrl_ok_atom (m : List (String × String)) (f : JVal) (u : Option String)
    (h : lookupUrl m f = .ok u) : isAtom f = true := by
  cases f <;> simp_all [lookupUrl, isAtom]

theorem stableV_atom (f : JVal) (h : isAtom f = true) : stableV f = true := by
  cases f <;> simp_all [isAtom, stableV]

theorem spliceable_atom (f : JVal) (h : isAtom f = true) : spliceable f = false := by
  cases f <;> simp_all [isAtom, spliceable]

theorem make_link_paragraph_is_obj (f : JVal) (url : Option String) :
    ∃ gs, make_link_paragraph f url = .obj gs := by
  rcases url with _ | u
  · exact ⟨_, rfl⟩
  · by_cases hu : u = "" <;> simp [make_link_paragraph, hu]

theorem jlistInd (P : JList → Prop) (h0 : P .nil)
    (h1 : ∀ v tl, P tl → P (.cons v tl)) : ∀ l, P l
  | .nil => h0
  | .cons v tl => h1 v tl (jlistInd P h0 h1 tl)

theorem jfieldsInd (P : JFields → Prop) (h0 : P .nil)
    (h1 : ∀ k v tl, P tl → P (.cons k v tl)) : ∀ fs, P fs
  | .nil => h0
  | .cons k v tl => h1 k v tl (jfieldsInd P h0 h1 tl)

theorem stable_plain_para (t : JVal) (h : isAtom t = true) :
    stableV (.obj (.cons "type" (.str "paragraph")
      (.cons "content" (.arr (.cons (.obj (.cons "type" (.str "text")
        (.cons "text" t .nil))) .nil)) .nil))) = true ∧
    spliceable (.obj (.cons "type" (.str "paragraph")
      (.cons "content" (.arr (.cons (.obj (.cons "type" (.str "text")
        (.cons "text" t .nil))) .nil)) .nil))) = false := by
  rcases t with s | n | b | _ | l | fs <;> simp [isAtom] at h <;>
    simp [stableV, stableF, stableL, stableContentL, pyGet, isMediaTy, spliceable]

theorem stable_marks_para (t : JVal) (u : String) (h : isAtom t = true) :
    stableV (.obj (.cons "type" (.str "paragraph")
      (.cons "content" (.arr (.cons (.obj (.cons "type" (.str "text")
        (.cons "text" t
          (.cons "marks" (.arr (.cons (.obj (.cons "type" (.str "link")
            (.cons "attrs" (.obj (.cons "href" (.str u) .nil)) .nil))) .nil))
            .nil)))) .nil)) .nil))) = true ∧
    spliceable (.obj (.cons "type" (.str "paragraph")
      (.cons "content" (.arr (.cons (.obj (.cons "type" (.str "text")
        (.cons "text" t
          (.cons "marks" (.arr (.cons (.obj (.cons "type" (.str "link")
            (.cons "attrs" (.obj (.cons "href" (.str u) .nil)) .nil))) .nil))
            .nil)))) .nil)) .nil))) = false := by
  rcases t with s | n | b | _ | l | fs <;> simp [isAtom] at h <;>
    simp [stableV, stableF, stableL, stableContentL, pyGet, isMediaTy, spliceable]

theorem make_link_paragraph_stable (f : JVal) (url : Option String)
    (hf : isAtom f = true) :
    stableV (make_link_paragraph f url) = true ∧
      spliceable (make_link_paragraph f url) = false := by
  have htext : isAtom (if pyTruthy f = true then f else .str "attachment") = true := by
    split
    · exact hf
    · rfl
  rcases url with _ | u
  · simpa [make_link_paragraph] using stable_plain_para _ htext
  · by_cases hu : u = ""
    · simpa [make_link_paragraph, hu] using stable_plain_para _ htext
    · simpa [make_link_paragraph, hu] using stable_marks_para _ u htext

theorem emptyParagraph_stable :
    stableV emptyParagraph = true ∧ spliceable emptyParagraph = false := by decide

theorem transformMediaItem_stable (m : List (String × String)) (media p : JVal)
    (h : transformMediaItem m media = .ok p) :
    stableV p = true ∧ spliceable p = false := by
  unfold transformMediaItem at h
  rcases hg : getFilename media with e | filename
  · rw [hg] at h
    simp at h
  · rw [hg] at h
    dsimp only at h
    rcases hl : lookupUrl m filename with e | url
    · rw [hl] at h
      simp at h
    · rw [hl] at h
      dsimp only at h
      have hh : make_link_paragraph
          (if pyTruthy filename = true then filename else JVal.str "image") url = p :=
        Except.ok.inj h
      subst hh
      have hatom : isAtom filename = true := lookupUrl_ok_atom m filename url hl
      have hatom2 : isAtom (if pyTruthy filename = true then filename else .str "image") = true := by
        split
        · exact hatom
        · rfl
      exact make_link_paragraph_stable _ url hatom2

theorem processGroup_stable (m : List (String × String)) :
    ∀ l, ∀ ps, processGroup m l = .ok ps → stableContentL ps = true := by
  refine jlistInd _ ?_ ?_
  · intro ps h
    simp only [processGroup, Except.ok.injEq] at h
    simp [← h, stableContentL]
  · intro v tl ih ps h
    unfold processGroup at h
    rcases hx : transformMediaItem m v with e | p
    · rw [hx] at h
      simp at h
    · rw [hx] at h
      dsimp only at h
      rcases hr : processGroup m tl with e | qs
      · rw [hr] at h
        simp at h
      · rw [hr] at h
        dsimp only at h
        have hps : ps = JList.cons p qs := (Except.ok.inj h).symm
        subst hps
        have hp := transformMediaItem_stable m v p hx
        simp [stableContentL, hp.1, hp.2, ih qs hr]

theorem transformMediaItem_is_obj (m : List (String × String)) (media p : JVal)
    (h : transformMediaItem m media = .ok p) : ∃ gs, p = .obj gs := by
  unfold transformMediaItem at h
  rcases hg : getFilename media with e | f
  · rw [hg] at h
    simp at h
  · rw [hg] at h
    dsimp only at h
    rcases hl : lookupUrl m f with e | url
    · rw [hl] at h
      simp at h
    · rw [hl] at h
      dsimp only at h
      obtain ⟨gs, hgs⟩ := make_link_paragraph_is_obj
        (if pyTruthy f = true then f else .str "image") url
      exact ⟨gs, (Except.ok.inj h).symm.trans hgs⟩

theorem transform_obj_ok (m : List (String × String)) (fs : JFields) (u : JVal)
    (h : transform m (.obj fs) = .ok u) : ∃ gs, u = .obj gs := by
  unfold transform at h
  split at h
  · -- mediaSingle
    dsimp only at h
    split at h
    · simp at h
    · exact transformMediaItem_is_obj m _ u h
  · -- mediaGroup
    dsimp only at h
    split at h
    · simp at h
    · split at h
      · simp at h
      · split at h
        · exact ⟨_, (Except.ok.inj h).symm⟩
        · exact ⟨_, (Except.ok.inj h).symm⟩
  · exact transformMediaItem_is_obj m _ u h
  · split at h
    · simp at h
    · exact ⟨_, (Except.ok.inj h).symm⟩

theorem transform_arr_ok (m : List (String × String)) (l : JList) (u : JVal)
    (h : transform m (.arr l) = .ok u) : ∃ l2, u = .arr l2 ∧ transformList m l = .ok l2 := by
  unfold transform at h
  split at h
  · simp at h
  · rename_i l2 hl2
    exact ⟨l2, (Except.ok.inj h).symm, hl2⟩

theorem transform_ok_str (m : List (String × String)) (v : JVal) (s : String)
    (h : transform m v = .ok (.str s)) : v = .str s := by
  rcases v with s0 | n | b | _ | l | fs
  · simpa [transform] using h
  · simp [transform] at h
  · simp [transform] at h
  · simp [transform] at h
  · obtain ⟨l2, hl2, _⟩ := transform_arr_ok m l _ h
    simp at hl2
  · obtain ⟨gs, hgs⟩ := transform_obj_ok m fs _ h
    simp at hgs

mutual
/-- Mutual structural induction over the value family, with dict values
split by list/non-list shape (matching the shape split of
`transformFields`). -/
def jvalIndV (P : JVal → Prop) (Q : JList → Prop) (R : JFields → Prop)
    (hstr : ∀ s, P (.str s)) (hnum : ∀ n, P (.num n))
    (hbool : ∀ b, P (.bool b)) (hnull : P .null)
    (harr : ∀ l, Q l → P (.arr l)) (hobj : ∀ fs, R fs → P (.obj fs))
    (hqnil : Q .nil) (hqcons : ∀ v tl, P v → Q tl → Q (.cons v tl))
    (hrnil : R .nil)
    (hrconsArr : ∀ k l tl, Q l → R tl → R (.cons k (.arr l) tl))
    (hrcons : ∀ k v tl, (∀ l, v = .arr l → False) → P v → R tl → R (.cons k v tl)) : ∀ v, P v
  | .str s => hstr s
  | .num n => hnum n
  | .bool b => hbool b
  | .null => hnull
  | .arr l => harr l (jvalIndL P Q R hstr hnum hbool hnull harr hobj hqnil hqcons hrnil hrconsArr hrcons l)
  | .obj fs => hobj fs (jvalIndF P Q R hstr hnum hbool hnull harr hobj hqnil hqcons hrnil hrconsArr hrcons fs)
/-- List part of the mutual induction. -/
def jvalIndL (P : JVal → Prop) (Q : JList → Prop) (R : JFields → Prop)
    (hstr : ∀ s, P (.str s)) (hnum : ∀ n, P (.num n))
    (hbool : ∀ b, P (.bool b)) (hnull : P .null)
    (harr : ∀ l, Q l → P (.arr l)) (hobj : ∀ fs, R fs → P (.obj fs))
    (hqnil : Q .nil) (hqcons : ∀ v tl, P v → Q tl → Q (.cons v tl))
    (hrnil : R .nil)
    (hrconsArr : ∀ k l tl, Q l → R tl → R (.cons k (.arr l) tl))
    (hrcons : ∀ k v tl, (∀ l, v = .arr l → False) → P v → R tl → R (.cons k v tl)) : ∀ l, Q l
  | .nil => hqnil
  | .cons v tl =>
    hqcons v tl (jvalIndV P Q R hstr hnum hbool hnull harr hobj hqnil hqcons hrnil hrconsArr hrcons v)
      (jvalIndL P Q R hstr hnum hbool hnull harr hobj hqnil hqcons hrnil hrconsArr hrcons tl)
/-- Dict part of the mutual induction. -/
def jvalIndF (P : JVal → Prop) (Q : JList → Prop) (R : JFields → Prop)
    (hstr : ∀ s, P (.str s)) (hnum : ∀ n, P (.num n))
    (hbool : ∀ b, P (.bool b)) (hnull : P .null)
    (harr : ∀ l, Q l → P (.arr l)) (hobj : ∀ fs, R fs → P (.obj fs))
    (hqnil : Q .nil) (hqcons : ∀ v tl, P v → Q tl → Q (.cons v tl))
    (hrnil : R .nil)
    (hrconsArr : ∀ k l tl, Q l → R tl → R (.cons k (.arr l) tl))
    (hrcons : ∀ k v tl, (∀ l, v = .arr l → False) → P v → R tl → R (.cons k v tl)) : ∀ fs, R fs
  | .nil => hrnil
  | .cons k (.arr l) tl =>
    hrconsArr k l tl (jvalIndL P Q R hstr hnum hbool hnull harr hobj hqnil hqcons hrnil hrconsArr hrcons l)
      (jvalIndF P Q R hstr hnum hbool hnull harr hobj hqnil hqcons hrnil hrconsArr hrcons tl)
  | .cons k (.str s) tl =>
    hrcons k (.str s) tl (fun _ h => nomatch h)
      (jvalIndV P Q R hstr hnum hbool hnull harr hobj hqnil hqcons hrnil hrconsArr hrcons (.str s))
      (jvalIndF P Q R hstr hnum hbool hnull harr hobj hqnil hqcons hrnil hrconsArr hrcons tl)
  | .cons k (.num n) tl =>
    hrcons k (.num n) tl (fun _ h => nomatch h)
      (jvalIndV P Q R hstr hnum hbool hnull harr hobj hqnil hqcons hrnil hrconsArr hrcons (.num n))
      (jvalIndF P Q R hstr hnum hbool hnull harr hobj hqnil hqcons hrnil hrconsArr hrcons tl)
  | .cons k (.bool b) tl =>
    hrcons k (.bool b) tl (fun _ h => nomatch h)
      (jvalIndV P Q R hstr hnum hbool hnull harr hobj hqnil hqcons hrnil hrconsArr hrcons (.bool b))
      (jvalIndF P Q R hstr hnum hbool hnull harr hobj hqnil hqcons hrnil hrconsArr hrcons tl)
  | .cons k .null tl =>
    hrcons k .null tl (fun _ h => nomatch h)
      (jvalIndV P Q R hstr hnum hbool hnull harr hobj hqnil hqcons hrnil hrconsArr hrcons .null)
      (jvalIndF P Q R hstr hnum hbool hnull harr hobj hqnil hqcons hrnil hrconsArr hrcons tl)
  | .cons k (.obj fs2) tl =>
    hrcons k (.obj fs2) tl (fun _ h => nomatch h)
      (jvalIndV P Q R hstr hnum hbool hnull harr hobj hqnil hqcons hrnil hrconsArr hrcons (.obj fs2))
      (jvalIndF P Q R hstr hnum hbool hnull harr hobj hqnil hqcons hrnil hrconsArr hrcons tl)
end

/-- The three conclusions of the mutual induction, packaged. -/
theorem jval_mutual_ind (P : JVal → Prop) (Q : JList → Prop) (R : JFields → Prop)
    (hstr : ∀ s, P (.str s)) (hnum : ∀ n, P (.num n))
    (hbool : ∀ b, P (.bool b)) (hnull : P .null)
    (harr : ∀ l, Q l → P (.arr l)) (hobj : ∀ fs, R fs → P (.obj fs))
    (hqnil : Q .nil) (hqcons : ∀ v tl, P v → Q tl → Q (.cons v tl))
    (hrnil : R .nil)
    (hrconsArr : ∀ k l tl, Q l → R tl → R (.cons k (.arr l) tl))
    (hrcons : ∀ k v tl, (∀ l, v = .arr l → False) → P v → R tl → R (.cons k v tl)) :
    (∀ v, P v) ∧ (∀ l, Q l) ∧ (∀ fs, R fs) :=
  ⟨jvalIndV P Q R hstr hnum hbool hnull harr hobj hqnil hqcons hrnil hrconsArr hrcons,
   jvalIndL P Q R hstr hnum hbool hnull harr hobj hqnil hqcons hrnil hrconsArr hrcons,
   jvalIndF P Q R hstr hnum hbool hnull harr hobj hqnil hqcons hrnil hrconsArr hrcons⟩

theorem isMediaTy_some_str (s : String) (h1 : s ≠ "mediaSingle")
    (h2 : s ≠ "mediaGroup") (h3 : s ≠ "media") :
    isMediaTy (some (.str s)) = false := by
  unfold isMediaTy
  split <;> simp_all

theorem isMediaTy_not_str (o : Option JVal) (h : ∀ s, o ≠ some (.str s)) :
    isMediaTy o = false := by
  unfold isMediaTy
  split <;> simp_all

theorem stableContentL_append (a b : JList) (ha : stableContentL a = true)
    (hb : stableContentL b = true) : stableContentL (a.append b) = true := by
  refine jlistInd (fun a => stableContentL a = true → stableContentL (a.append b) = true)
    ?_ ?_ a ha
  · intro _
    simpa [JList.append]
  · intro v tl ih h
    obtain ⟨⟨h1, h2⟩, h3⟩ : (stableV v = true ∧ (!spliceable v) = true) ∧
        stableContentL tl = true := by
      simpa [stableContentL, Bool.and_eq_true] using h
    simp [JList.append, stableContentL, h1, h2, ih h3]

theorem stableF_tail (k : String) (v : JVal) (tl : JFields)
    (h : stableF (.cons k v tl) = true) : stableF tl = true := by
  rcases v with s | n | b | _ | l | fs2
  · simp only [stableF, Bool.and_eq_true] at h
    exact h.2
  · simp only [stableF, Bool.and_eq_true] at h
    exact h.2
  · simp only [stableF, Bool.and_eq_true] at h
    exact h.2
  · simp only [stableF, Bool.and_eq_true] at h
    exact h.2
  · simp only [stableF] at h
    split at h <;> simp only [Bool.and_eq_true] at h <;> exact h.2
  · simp only [stableF, Bool.and_eq_true] at h
    exact h.2

theorem stableF_content_lookup (fs : JFields) (hs : stableF fs = true)
    (inner : JList) (hc : pyGet fs "content" = some (.arr inner)) :
    stableContentL inner = true := by
  refine jfieldsInd (fun fs => stableF fs = true →
    pyGet fs "content" = some (.arr inner) → stableContentL inner = true) ?_ ?_ fs hs hc
  · intro _ hc2
    simp [pyGet] at hc2
  · intro k v tl ih h hc2
    by_cases hk : k = "content"
    · subst hk
      have hv : v = .arr inner := by
        have : pyGet (JFields.cons "content" v tl) "content" = some v := by simp [pyGet]
        rw [this] at hc2
        exact Option.some.inj hc2
      subst hv
      have h2 : stableContentL inner && stableF tl = true := by
        simpa [stableF] using h
      simp only [Bool.and_eq_true] at h2
      exact h2.1
    · have : pyGet (JFields.cons k v tl) "content" = pyGet tl "content" := by
        simp [pyGet, hk]
      rw [this] at hc2
      exact ih (stableF_tail k v tl h) hc2

theorem spliceable_obj_false (gs : JFields)
    (h : ∀ inner, pyGet gs "type" = some (.str "doc") →
      pyGet gs "content" = some (.arr inner) → False) :
    spliceable (.obj gs) = false := by
  unfold spliceable
  split <;> simp_all

theorem spliceable_not_obj (tc : JVal) (h : ∀ gs, tc = .obj gs → False) :
    spliceable tc = false := by
  cases tc <;> simp [spliceable] at h ⊢

theorem transformFields_cons_nonarr (m : List (String × String)) (k : String)
    (v : JVal) (tl : JFields) (hv : ∀ l, v = .arr l → False) :
    transformFields m (.cons k v tl) =
      match transform m v with
      | .error e => .error e
      | .ok w =>
        match transformFields m tl with
        | .error e => .error e
        | .ok tl2 => .ok (.cons k w tl2) := by
  rcases v with s | n | b | _ | l | fs2
  · rfl
  · rfl
  · rfl
  · rfl
  · exact absurd rfl (hv l)
  · rfl

theorem transform_ok_not_arr (m : List (String × String)) (v w : JVal)
    (hv : ∀ l, v = .arr l → False) (h : transform m v = .ok w) :
    ∀ l, w = .arr l → False := by
  rcases v with s | n | b | _ | l | fs
  · rw [transform_atom m (.str s) rfl] at h
    rw [← Except.ok.inj h]
    intro l hl
    exact nomatch hl
  · rw [transform_atom m (.num n) rfl] at h
    rw [← Except.ok.inj h]
    intro l hl
    exact nomatch hl
  · rw [transform_atom m (.bool b) rfl] at h
    rw [← Except.ok.inj h]
    intro l hl
    exact nomatch hl
  · rw [transform_atom m .null rfl] at h
    rw [← Except.ok.inj h]
    intro l hl
    exact nomatch hl
  · exact absurd rfl (hv l)
  · obtain ⟨gs, hgs⟩ := transform_obj_ok m fs w h
    subst hgs
    intro l hl
    exact nomatch hl

theorem stableF_cons_not_arr (k : String) (w : JVal) (tl : JFields)
    (hw : ∀ l, w = .arr l → False) :
    stableF (.cons k w tl) = (stableV w && stableF tl) := by
  rcases w with s | n | b | _ | l | fs
  · rfl
  · rfl
  · rfl
  · rfl
  · exact absurd rfl (hw l)
  · rfl

theorem transform_stable_all (m : List (String × String)) :
    (∀ v, ∀ u, transform m v = .ok u → stableV u = true) ∧
    (∀ l, (∀ l2, transformList m l = .ok l2 → stableL l2 = true) ∧
          (∀ l2, transformContent m l = .ok l2 → stableContentL l2 = true)) ∧
    (∀ fs, ∀ gs, transformFields m fs = .ok gs → stableF gs = true ∧
          (∀ key s, pyGet gs key = some (.str s) → pyGet fs key = some (.str s))) := by
  refine jval_mutual_ind
    (fun v => ∀ u, transform m v = .ok u → stableV u = true)
    (fun l => (∀ l2, transformList m l = .ok l2 → stableL l2 = true) ∧
              (∀ l2, transformContent m l = .ok l2 → stableContentL l2 = true))
    (fun fs => ∀ gs, transformFields m fs = .ok gs → stableF gs = true ∧
              (∀ key s, pyGet gs key = some (.str s) → pyGet fs key = some (.str s)))
    ?_ ?_ ?_ ?_ ?_ ?_ ?_ ?_ ?_ ?_ ?_
  · intro s u h
    rw [transform_atom m (.str s) rfl] at h
    exact (Except.ok.inj h) ▸ rfl
  · intro n u h
    rw [transform_atom m (.num n) rfl] at h
    exact (Except.ok.inj h) ▸ rfl
  · intro b u h
    rw [transform_atom m (.bool b) rfl] at h
    exact (Except.ok.inj h) ▸ rfl
  · intro u h
    rw [transform_atom m .null rfl] at h
    exact (Except.ok.inj h) ▸ rfl
  · intro l hQ u h
    obtain ⟨l2, hu, hlist⟩ := transform_arr_ok m l u h
    subst hu
    simpa [stableV] using hQ.1 l2 hlist
  · -- obj
    intro fs hR u h
    unfold transform at h
    split at h
    · -- mediaSingle
      dsimp only at h
      split at h
      · simp at h
      · exact (transformMediaItem_stable m _ u h).1
    · -- mediaGroup
      dsimp only at h
      split at h
      · simp at h
      · split at h
        · simp at h
        · split at h
          · exact (Except.ok.inj h) ▸ emptyParagraph_stable.1
          · rename_i x3 htyg x2 ps hitems x1 x0 v0 tl0 hproc
            have hstab := processGroup_stable m ps (JList.cons v0 tl0) hproc
            rw [← Except.ok.inj h]
            have hd : isMediaTy (some (.str "doc")) = false := by decide
            simp [stableV, stableF, pyGet, hd, hstab]
    · -- media
      exact (transformMediaItem_stable m _ u h).1
    · -- generic
      split at h
      · simp at h
      · rename_i x4 hns hng hnm x0 gs htf
        rw [← Except.ok.inj h]
        obtain ⟨hsf, hpres⟩ := hR gs htf
        simp only [stableV, hsf, Bool.and_true, Bool.not_eq_eq_eq_not, Bool.not_true]
        rcases hty : pyGet gs "type" with _ | w
        · exact isMediaTy_not_str none (by simp)
        · rcases w with s | n2 | b2 | _ | l2 | fs2
          · have hfs := hpres "type" s hty
            refine isMediaTy_some_str s ?_ ?_ ?_
            · intro hcon
              exact hns (hcon ▸ hfs)
            · intro hcon
              exact hng (hcon ▸ hfs)
            · intro hcon
              exact hnm (hcon ▸ hfs)
          · exact isMediaTy_not_str _ (by simp)
          · exact isMediaTy_not_str _ (by simp)
          · exact isMediaTy_not_str _ (by simp)
          · exact isMediaTy_not_str _ (by simp)
          · exact isMediaTy_not_str _ (by simp)
  · -- list nil
    constructor
    · intro l2 h
      simp only [transformList, Except.ok.injEq] at h
      simp [← h, stableL]
    · intro l2 h
      simp only [transformContent, Except.ok.injEq] at h
      simp [← h, stableContentL]
  · -- list cons
    intro v tl hP hQ
    constructor
    · intro l2 h
      unfold transformList at h
      split at h
      · simp at h
      · split at h
        · simp at h
        · rename_i x1 y hy x0 ys hys
          rw [← Except.ok.inj h]
          simp [stableL, hP y hy, hQ.1 ys hys]
    · intro l2 h
      unfold transformContent at h
      split at h
      · simp at h
      · split at h
        · simp at h
        · split at h
          · -- tc is an obj
            split at h
            · -- splice
              rename_i x4 x3 ps hps x2 as1 htc x1 x0 inner htyd hcond
              rw [← Except.ok.inj h]
              have hsv := hP _ htc
              have hsf : stableF as1 = true := by
                simp only [stableV, Bool.and_eq_true] at hsv
                exact hsv.2
              exact stableContentL_append _ _
                (stableF_content_lookup as1 hsf inner hcond) (hQ.2 ps hps)
            · -- obj, no splice
              rename_i x5 x4 ps hps x3 as1 htc x2 x1 hnos
              rw [← Except.ok.inj h]
              have hsv := hP _ htc
              have hnsp : spliceable (.obj as1) = false :=
                spliceable_obj_false as1 fun inner h1 h2 => hnos inner h1 h2
              simp [stableContentL, hsv, hnsp, hQ.2 ps hps]
          · -- tc not an obj
            rename_i x3 tc htc x2 ps hps x1 hnotobj
            rw [← Except.ok.inj h]
            have hsv := hP _ htc
            have hnsp : spliceable tc = false :=
              spliceable_not_obj tc fun gs hg => hnotobj gs hg
            simp [stableContentL, hsv, hnsp, hQ.2 ps hps]
  · -- fields nil
    intro gs h
    simp only [transformFields, Except.ok.injEq] at h
    rw [← h]
    exact ⟨rfl, fun key s hk => by simp [pyGet] at hk⟩
  · -- fields cons, arr value
    intro k l tl hQ hR gs h
    unfold transformFields at h
    split at h
    · -- k = "content"
      rename_i hk
      split at h
      · simp at h
      · split at h
        · simp at h
        · rename_i x1 ps hcl x0 gs2 htl
          rw [← Except.ok.inj h]
          subst hk
          constructor
          · simp [stableF, hQ.2 ps hcl, (hR gs2 htl).1]
          · intro key s hkey
            by_cases hck : ("content" : String) = key
            · simp [pyGet, hck] at hkey
            · simp only [pyGet, if_neg hck] at hkey ⊢
              exact (hR gs2 htl).2 key s hkey
    · -- k ≠ "content"
      rename_i hk
      split at h
      · simp at h
      · split at h
        · simp at h
        · rename_i x1 ps hcl x0 gs2 htl
          rw [← Except.ok.inj h]
          constructor
          · simp [stableF, hk, hQ.1 ps hcl, (hR gs2 htl).1]
          · intro key s hkey
            by_cases hck : k = key
            · simp [pyGet, hck] at hkey
            · simp only [pyGet, if_neg hck] at hkey ⊢
              exact (hR gs2 htl).2 key s hkey
  · -- fields cons, non-arr value
    intro k v tl hv hP hR gs h
    rw [transformFields_cons_nonarr m k v tl hv] at h
    split at h
    · simp at h
    · split at h
      · simp at h
      · rename_i x1 w hw x0 tl2 htl
        rw [← Except.ok.inj h]
        have hwa := transform_ok_not_arr m v w hv hw
        constructor
        · rw [stableF_cons_not_arr k w tl2 hwa]
          simp [hP w hw, (hR tl2 htl).1]
        · intro key s hkey
          by_cases hck : k = key
          · simp only [pyGet, if_pos hck] at hkey ⊢
            have hws : w = .str s := Option.some.inj hkey
            subst hws
            have hvs := transform_ok_str m v s hw
            subst hvs
            rfl
          · simp only [pyGet, if_neg hck] at hkey ⊢
            exact (hR tl2 htl).2 key s hkey

theorem transform_of_stable_all (m : List (String × String)) :
    (∀ v, stableV v = true → transform m v = .ok v) ∧
    (∀ l, (stableL l = true → transformList m l = .ok l) ∧
          (stableContentL l = true → transformContent m l = .ok l)) ∧
    (∀ fs, stableF fs = true → transformFields m fs = .ok fs) := by
  refine jval_mutual_ind
    (fun v => stableV v = true → transform m v = .ok v)
    (fun l => (stableL l = true → transformList m l = .ok l) ∧
              (stableContentL l = true → transformContent m l = .ok l))
    (fun fs => stableF fs = true → transformFields m fs = .ok fs)
    ?_ ?_ ?_ ?_ ?_ ?_ ?_ ?_ ?_ ?_ ?_
  · intro s _
    exact transform_atom m (.str s) rfl
  · intro n _
    exact transform_atom m (.num n) rfl
  · intro b _
    exact transform_atom m (.bool b) rfl
  · intro _
    exact transform_atom m .null rfl
  · intro l hQ hs
    have : transformList m l = .ok l := hQ.1 (by simpa [stableV] using hs)
    simp [transform, this]
  · -- obj
    intro fs hR hs
    have hmed : isMediaTy (pyGet fs "type") = false := by
      simp only [stableV, Bool.and_eq_true, Bool.not_eq_eq_eq_not, Bool.not_true] at hs
      exact hs.1
    have hsf : stableF fs = true := by
      simp only [stableV, Bool.and_eq_true] at hs
      exact hs.2
    show transform m (.obj fs) = .ok (.obj fs)
    unfold transform
    split
    · rename_i hty
      rw [hty] at hmed
      simp [isMediaTy] at hmed
    · rename_i hty
      rw [hty] at hmed
      simp [isMediaTy] at hmed
    · rename_i hty
      rw [hty] at hmed
      simp [isMediaTy] at hmed
    · rw [hR hsf]
  · -- list nil
    exact ⟨fun _ => rfl, fun _ => rfl⟩
  · -- list cons
    intro v tl hP hQ
    constructor
    · intro hs
      obtain ⟨h1, h2⟩ : stableV v = true ∧ stableL tl = true := by
        simpa [stableL, Bool.and_eq_true] using hs
      show transformList m (.cons v tl) = .ok (.cons v tl)
      unfold transformList
      rw [hP h1, hQ.1 h2]
    · intro hs
      obtain ⟨h1, h2, h3⟩ : stableV v = true ∧ (!spliceable v) = true ∧
          stableContentL tl = true := by
        simpa [stableContentL, Bool.and_eq_true, and_assoc] using hs
      show transformContent m (.cons v tl) = .ok (.cons v tl)
      unfold transformContent
      rw [hP h1, hQ.2 h3]
      rcases v with s | n | b | _ | l | gs
      · rfl
      · rfl
      · rfl
      · rfl
      · rfl
      · -- obj: the splice branch is excluded by ¬spliceable
        have hnsp : spliceable (.obj gs) = false := by
          simpa using h2
        dsimp only
        split
        · rename_i htyd hcond
          exfalso
          rw [spliceable] at hnsp
          rw [htyd, hcond] at hnsp
          simp at hnsp
        · rfl
  · -- fields nil
    intro _
    rfl
  · -- fields cons, arr value
    intro k l tl hQ hR hs
    show transformFields m (.cons k (.arr l) tl) = .ok (.cons k (.arr l) tl)
    unfold transformFields
    by_cases hk : k = "content"
    · rw [if_pos hk]
      obtain ⟨h1, h2⟩ : stableContentL l = true ∧ stableF tl = true := by
        subst hk
        simpa [stableF, Bool.and_eq_true] using hs
      rw [hQ.2 h1, hR h2]
    · rw [if_neg hk]
      obtain ⟨h1, h2⟩ : stableL l = true ∧ stableF tl = true := by
        have := hs
        simp only [stableF, if_neg hk, Bool.and_eq_true] at this
        exact this
      rw [hQ.1 h1, hR h2]
  · -- fields cons, non-arr value
    intro k v tl hv hP hR hs
    rw [transformFields_cons_nonarr m k v tl hv]
    obtain ⟨h1, h2⟩ : stableV v = true ∧ stableF tl = true := by
      have := hs
      rw [stableF_cons_not_arr k v tl hv] at this
      simpa [Bool.and_eq_true] using this
    rw [hP h1, hR h2]

theorem transform_stable (m : List (String × String)) (v u : JVal)
    (h : transform m v = .ok u) : stableV u = true :=
  (transform_stable_all m).1 v u h

theorem transform_of_stable (m : List (String × String)) (v : JVal)
    (h : stableV v = true) : transform m v = .ok v :=
  (transform_of_stable_all m).1 v h

theorem urls_filter_empty (m : List (String × String)) (hm : ∀ p ∈ m, p.2 = "") :
    (m.map (fun p => p.2)).filter (fun u => u ≠ "") = [] := by
  induction m with
  | nil => rfl
  | cons p r ih =>
    have hp := hm p (by simp)
    simp only [List.map_cons, List.filter_cons, hp]
    simpa using ih fun q hq => hm q (by simp [hq])

theorem replace_no_urls (m : List (String × String)) (hm : ∀ p ∈ m, p.2 = "")
    (t : JVal) : adf_replace_media_with_attachment_links m t = transform m t := by
  unfold adf_replace_media_with_attachment_links
  rcases htr : transform m t with e | u
  · rfl
  · rcases u with s | n | b | _ | l | fs
    · rfl
    · rfl
    · rfl
    · rfl
    · rfl
    · rcases hty : pyGet fs "type" with _ | w
      · simp [hty]
      · rcases w with s2 | n2 | b2 | _ | l2 | fs2
        · by_cases hd : s2 = "doc"
          · subst hd
            have hemp := urls_filter_empty m hm
            simp [hty, hemp]
            intro x y hmem hx
            exact absurd (hm (y, x) hmem) hx
          · simp [hty, hd]
        · simp [hty]
        · simp [hty]
        · simp [hty]
        · simp [hty]
        · simp [hty]

/-- Equality of modelled call results is decidable (used to evaluate
counterexamples on concrete inputs). -/
instance : DecidableEq (Except PyErr JVal) := fun a b =>
  match a, b with
  | .ok x, .ok y => if h : x = y then .isTrue (by rw [h]) else .isFalse (by simp [h])
  | .error e, .error f => if h : e = f then .isTrue (by rw [h]) else .isFalse (by simp [h])
  | .ok _, .error _ => .isFalse (by simp)
  | .error _, .ok _ => .isFalse (by simp)

def emptyDocNode : JVal :=
  .obj (.cons "type" (.str "doc") (.cons "content" (.arr .nil) .nil))

def nestedDocNode : JVal :=
  .obj (.cons "type" (.str "doc") (.cons "content" (.arr (.cons emptyDocNode .nil)) .nil))

/-- The paragraph emitted for a media reference with no matching URL:
one `text` node holding the filename, no marks. -/
def plainTextParagraph (t : String) : JVal :=
  .obj (.cons "type" (.str "paragraph")
    (.cons "content" (.arr (.cons (.obj (.cons "type" (.str "text")
      (.cons "text" (.str t) .nil))) .nil)) .nil))

/-- The paragraph emitted for a media reference with a matching URL:
one `text` node holding the filename, with a `link` mark to the URL. -/
def linkedTextParagraph (t u : String) : JVal :=
  .obj (.cons "type" (.str "paragraph")
    (.cons "content" (.arr (.cons (.obj (.cons "type" (.str "text")
      (.cons "text" (.str t)
        (.cons "marks" (.arr (.cons (.obj (.cons "type" (.str "link")
          (.cons "attrs" (.obj (.cons "href" (.str u) .nil)) .nil))) .nil))
          .nil)))) .nil)) .nil))

/-- A `mediaSingle` node whose embedded media child carries the filename
under attribute `akey` (either `fileName` or `name`). -/
def mediaSingleNode (akey f : String) : JVal :=
  .obj (.cons "type" (.str "mediaSingle")
    (.cons "content" (.arr (.cons (.obj (.cons "attrs"
      (.obj (.cons akey (.str f) .nil)) .nil)) .nil)) .nil))

/-- A standalone `media` node carrying the filename under attribute `akey`. -/
def mediaNode (akey f : String) : JVal :=
  .obj (.cons "type" (.str "media")
    (.cons "attrs" (.obj (.cons akey (.str f) .nil)) .nil))

/-- A `mediaSingle` node whose media child has no attributes at all. -/
def mediaSingleNodeBare : JVal :=
  .obj (.cons "type" (.str "mediaSingle")
    (.cons "content" (.arr (.cons (.obj .nil) .nil)) .nil))

/-- A standalone `media` node with no attributes. -/
def mediaNodeBare : JVal :=
  .obj (.cons "type" (.str "media") .nil)

/-- C3 counterexample: `replace_media_with_links` is not idempotent as
claimed.  On the empty `doc` with the mapping `a.png ↦ https://x/a.png`,
the second application appends a second trailing `Attachments:` paragraph
and bullet list, so `replace (replace t) ≠ replace t`. -/
theorem claim_C3_counterexample :
    (replace_media_with_links [("a.png", "https://x/a.png")] emptyDocNode).bind
      (replace_media_with_links [("a.png", "https://x/a.png")]) ≠
    replace_media_with_links [("a.png", "https://x/a.png")] emptyDocNode := by
  decide

/-- C3 (amended): when the mapping contains no entry with a non-empty URL
(in particular when it is empty), applying `replace_media_with_links` to
its own output with the same mapping is a no-op: the trailing-attachments
post-pass does not fire, and the first pass leaves no media node behind. -/
theorem claim_C3_idempotent_no_urls (m : List (String × String)) (t u : JVal)
    (hm : ∀ p ∈ m, p.2 = "") (h : replace_media_with_links m t = .ok u) :
    replace_media_with_links m u = .ok u := by
  rw [replace_media_with_links, replace_no_urls m hm] at h ⊢
  exact transform_of_stable m u (transform_stable m t u h)

/-- Witness for C3 (amended) at the empty mapping and a `mediaSingle` input. -/
theorem claim_C3_witness :
    replace_media_with_links [] (plainTextParagraph "image") =
      .ok (plainTextParagraph "image") :=
  claim_C3_idempotent_no_urls [] mediaSingleNodeBare (plainTextParagraph "image")
    (by simp) (by decide)

/-- C4 counterexample: `replace_media_with_links` is not the structural
identity on media-free documents.  With a non-empty mapping the post-pass
appends trailing nodes to the empty `doc`; and even with the empty mapping
a `doc` node nested in a `content` list is spliced away. -/
theorem claim_C4_counterexample :
    replace_media_with_links [("c.png", "https://x/c.png")] emptyDocNode ≠
      .ok emptyDocNode ∧
    replace_media_with_links [] nestedDocNode ≠ .ok nestedDocNode := by
  decide

/-- C4 (amended): `replace_media_with_links` is the structural identity on
documents that contain no media-family node and no `doc`-typed node (with
list `content`) directly inside a `content` list, provided the mapping
holds no non-empty URL (in particular for the empty mapping). -/
theorem claim_C4_identity (m : List (String × String)) (t : JVal)
    (hm : ∀ p ∈ m, p.2 = "") (hs : stableV t = true) :
    replace_media_with_links m t = .ok t := by
  rw [replace_media_with_links, replace_no_urls m hm]
  exact transform_of_stable m t hs

/-- Witness for C4 (amended) on a small media-free document. -/
theorem claim_C4_witness :
    replace_media_with_links [] (plainTextParagraph "hello") =
      .ok (plainTextParagraph "hello") :=
  claim_C4_identity [] (plainTextParagraph "hello") (by simp) (by decide)

theorem lookupStr_mem (m : List (String × String)) (f u : String)
    (h : lookupStr m f = some u) : (f, u) ∈ m := by
  induction m with
  | nil => simp [lookupStr] at h
  | cons p r ih =>
    rcases p with ⟨k, v⟩
    by_cases hk : k = f
    · subst hk
      simp [lookupStr] at h
      simp [h]
    · simp only [lookupStr, if_neg hk] at h
      simp [ih h]

theorem lookupStr_none_iff (m : List (String × String)) (f : String) :
    lookupStr m f = none ↔ f ∉ m.map (fun p => p.1) := by
  induction m with
  | nil => simp [lookupStr]
  | cons p r ih =>
    rcases p with ⟨k, v⟩
    by_cases hk : k = f
    · subst hk
      simp [lookupStr]
    · simp [lookupStr, hk, ih, Ne.symm hk]

theorem getFilename_fileName (f : String) (hf : f ≠ "") :
    getFilename (.obj (.cons "attrs" (.obj (.cons "fileName" (.str f) .nil)) .nil)) =
      .ok (.str f) := by
  simp [getFilename, pyGet, pyTruthy, hf]

theorem getFilename_name (f : String) :
    getFilename (.obj (.cons "attrs" (.obj (.cons "name" (.str f) .nil)) .nil)) =
      .ok (.str f) := by
  simp [getFilename, pyGet, pyTruthy]

theorem getFilename_media_fileName (f : String) (hf : f ≠ "") :
    getFilename (mediaNode "fileName" f) = .ok (.str f) := by
  simp [mediaNode, getFilename, pyGet, pyTruthy, hf]

theorem getFilename_media_name (f : String) :
    getFilename (mediaNode "name" f) = .ok (.str f) := by
  simp [mediaNode, getFilename, pyGet, pyTruthy]

theorem getFilename_bare : getFilename (.obj .nil) = .ok .null := by
  simp [getFilename, pyGet, pyTruthy]

theorem getFilename_mediaBare : getFilename mediaNodeBare = .ok .null := by
  simp [mediaNodeBare, getFilename, pyGet, pyTruthy]

theorem make_link_paragraph_some (f u : String) (hf : f ≠ "") (hu : u ≠ "") :
    make_link_paragraph (.str f) (some u) = linkedTextParagraph f u := by
  simp [make_link_paragraph, pyTruthy, hf, hu, linkedTextParagraph]

theorem make_link_paragraph_none (f : String) (hf : f ≠ "") :
    make_link_paragraph (.str f) none = plainTextParagraph f := by
  simp [make_link_paragraph, pyTruthy, hf, plainTextParagraph]

theorem transformMediaItem_attr (m : List (String × String)) (media : JVal)
    (f : String) (hf : f ≠ "") (hgf : getFilename media = .ok (.str f)) :
    transformMediaItem m media = .ok (make_link_paragraph (.str f) (lookupStr m f)) := by
  unfold transformMediaItem
  rw [hgf]
  simp [lookupUrl, pyTruthy, hf]

theorem transformMediaItem_nullname (m : List (String × String)) (media : JVal)
    (hgf : getFilename media = .ok .null) :
    transformMediaItem m media = .ok (plainTextParagraph "image") := by
  unfold transformMediaItem
  rw [hgf]
  have : make_link_paragraph (.str "image") none = plainTextParagraph "image" :=
    make_link_paragraph_none "image" (by decide)
  simp [lookupUrl, pyTruthy, this]

theorem transform_mediaSingle_raw (m : List (String × String)) (akey f : String) :
    transform m (mediaSingleNode akey f) =
      transformMediaItem m (.obj (.cons "attrs" (.obj (.cons akey (.str f) .nil)) .nil)) := rfl

theorem transform_media_raw (m : List (String × String)) (akey f : String) :
    transform m (mediaNode akey f) = transformMediaItem m (mediaNode akey f) := rfl

theorem transform_mediaSingleBare (m : List (String × String)) :
    transform m mediaSingleNodeBare = transformMediaItem m (.obj .nil) := rfl

theorem transform_mediaBare (m : List (String × String)) :
    transform m mediaNodeBare = transformMediaItem m mediaNodeBare := rfl

theorem replace_of_transform_plain (m : List (String × String)) (t : JVal) (f2 : String)
    (htr : transform m t = .ok (plainTextParagraph f2)) :
    replace_media_with_links m t = .ok (plainTextParagraph f2) := by
  unfold replace_media_with_links adf_replace_media_with_attachment_links
  rw [htr]
  rfl

theorem replace_of_transform_linked (m : List (String × String)) (t : JVal) (f2 u : String)
    (htr : transform m t = .ok (linkedTextParagraph f2 u)) :
    replace_media_with_links m t = .ok (linkedTextParagraph f2 u) := by
  unfold replace_media_with_links adf_replace_media_with_attachment_links
  rw [htr]
  rfl

/-- C1: on a `mediaSingle` node (and identically a standalone `media`
node), `replace_media_with_links` emits exactly one paragraph with one
text node whose text is the filename taken from the media child's
`fileName`/`name` attribute; the text node carries a `link` mark with the
mapped URL exactly when the filename is a key of the mapping; with no
`fileName`/`name` attribute the text is the literal `"image"` with no
link mark.  (The mapping hypotheses mirror the construction of
`filename_to_url`, whose keys and values are truthy.) -/
theorem claim_C1_mediaSingle_paragraph (m : List (String × String))
    (hkeys : ∀ p ∈ m, p.1 ≠ "" ∧ p.2 ≠ "") (f : String) (hf : f ≠ "") :
    (∀ u, lookupStr m f = some u →
      replace_media_with_links m (mediaSingleNode "fileName" f) =
        .ok (linkedTextParagraph f u) ∧
      replace_media_with_links m (mediaSingleNode "name" f) =
        .ok (linkedTextParagraph f u) ∧
      replace_media_with_links m (mediaNode "fileName" f) =
        .ok (linkedTextParagraph f u) ∧
      replace_media_with_links m (mediaNode "name" f) =
        .ok (linkedTextParagraph f u)) ∧
    (lookupStr m f = none →
      replace_media_with_links m (mediaSingleNode "fileName" f) =
        .ok (plainTextParagraph f) ∧
      replace_media_with_links m (mediaSingleNode "name" f) =
        .ok (plainTextParagraph f) ∧
      replace_media_with_links m (mediaNode "fileName" f) =
        .ok (plainTextParagraph f) ∧
      replace_media_with_links m (mediaNode "name" f) =
        .ok (plainTextParagraph f)) ∧
    ((∃ u, lookupStr m f = some u) ↔ f ∈ m.map (fun p => p.1)) ∧
    replace_media_with_links m mediaSingleNodeBare = .ok (plainTextParagraph "image") ∧
    replace_media_with_links m mediaNodeBare = .ok (plainTextParagraph "image") := by
  refine ⟨?_, ?_, ?_, ?_, ?_⟩
  · intro u hs
    have hu : u ≠ "" := (hkeys (f, u) (lookupStr_mem m f u hs)).2
    refine ⟨?_, ?_, ?_, ?_⟩
    · refine replace_of_transform_linked m _ f u ?_
      rw [transform_mediaSingle_raw,
        transformMediaItem_attr m _ f hf (getFilename_fileName f hf), hs,
        make_link_paragraph_some f u hf hu]
    · refine replace_of_transform_linked m _ f u ?_
      rw [transform_mediaSingle_raw,
        transformMediaItem_attr m _ f hf (getFilename_name f), hs,
        make_link_paragraph_some f u hf hu]
    · refine replace_of_transform_linked m _ f u ?_
      rw [transform_media_raw,
        transformMediaItem_attr m _ f hf (getFilename_media_fileName f hf), hs,
        make_link_paragraph_some f u hf hu]
    · refine replace_of_transform_linked m _ f u ?_
      rw [transform_media_raw,
        transformMediaItem_attr m _ f hf (getFilename_media_name f), hs,
        make_link_paragraph_some f u hf hu]
  · intro hs
    refine ⟨?_, ?_, ?_, ?_⟩
    · refine replace_of_transform_plain m _ f ?_
      rw [transform_mediaSingle_raw,
        transformMediaItem_attr m _ f hf (getFilename_fileName f hf), hs,
        make_link_paragraph_none f hf]
    · refine replace_of_transform_plain m _ f ?_
      rw [transform_mediaSingle_raw,
        transformMediaItem_attr m _ f hf (getFilename_name f), hs,
        make_link_paragraph_none f hf]
    · refine replace_of_transform_plain m _ f ?_
      rw [transform_media_raw,
        transformMediaItem_attr m _ f hf (getFilename_media_fileName f hf), hs,
        make_link_paragraph_none f hf]
    · refine replace_of_transform_plain m _ f ?_
      rw [transform_media_raw,
        transformMediaItem_attr m _ f hf (getFilename_media_name f), hs,
        make_link_paragraph_none f hf]
  · constructor
    · rintro ⟨u, hu2⟩
      by_contra hnot
      rw [(lookupStr_none_iff m f).mpr hnot] at hu2
      cases hu2
    · intro hmem
      rcases hl : lookupStr m f with _ | u
      · exact absurd hmem ((lookupStr_none_iff m f).mp hl)
      · exact ⟨u, rfl⟩
  · refine replace_of_transform_plain m _ "image" ?_
    rw [transform_mediaSingleBare, transformMediaItem_nullname m _ getFilename_bare]
  · refine replace_of_transform_plain m _ "image" ?_
    rw [transform_mediaBare, transformMediaItem_nullname m _ getFilename_mediaBare]

/-- Witness for C1 at the spec's own example: `fileName = "a.png"` with
mapping `a.png ↦ https://x/a.png` yields one paragraph whose text node
`"a.png"` carries a link mark to the URL. -/
theorem claim_C1_witness :
    replace_media_with_links [("a.png", "https://x/a.png")]
        (mediaSingleNode "fileName" "a.png") =
      .ok (linkedTextParagraph "a.png" "https://x/a.png") :=
  (((claim_C1_mediaSingle_paragraph [("a.png", "https://x/a.png")]
      (by decide) "a.png" (by decide)).1 "https://x/a.png" (by decide))).1

/-- Media children of a `mediaGroup`, one per filename (under `fileName`). -/
def mediaItemsOf : List String → JList
  | [] => .nil
  | f :: rest =>
    .cons (.obj (.cons "attrs" (.obj (.cons "fileName" (.str f) .nil)) .nil))
      (mediaItemsOf rest)

/-- A `mediaGroup` node holding one media child per filename. -/
def mediaGroupNode (names : List String) : JVal :=
  .obj (.cons "type" (.str "mediaGroup")
    (.cons "content" (.arr (mediaItemsOf names)) .nil))

/-- The paragraphs the group rewrite produces, one per filename, each
formed exactly as in the `mediaSingle` case. -/
def groupParagraphs (m : List (String × String)) : List String → JList
  | [] => .nil
  | f :: rest => .cons (make_link_paragraph (.str f) (lookupStr m f)) (groupParagraphs m rest)

/-- The value `transform` returns for a `mediaGroup`: the empty paragraph
when no paragraphs were produced, else the `doc`-typed wrapper. -/
def mediaGroupResult (m : List (String × String)) (names : List String) : JVal :=
  match names with
  | [] => emptyParagraph
  | _ :: _ =>
    .obj (.cons "type" (.str "doc") (.cons "version" (.num 1)
      (.cons "content" (.arr (groupParagraphs m names)) .nil)))

theorem processGroup_mediaItems (m : List (String × String)) (names : List String)
    (hn : ∀ f ∈ names, f ≠ "") :
    processGroup m (mediaItemsOf names) = .ok (groupParagraphs m names) := by
  induction names with
  | nil => rfl
  | cons f rest ih =>
    have hf : f ≠ "" := hn f (by simp)
    have hitem := transformMediaItem_attr m
      (.obj (.cons "attrs" (.obj (.cons "fileName" (.str f) .nil)) .nil)) f hf
      (getFilename_fileName f hf)
    show processGroup m (.cons _ (mediaItemsOf rest)) = _
    unfold processGroup
    rw [hitem, ih fun g hg => hn g (by simp [hg])]
    rfl

theorem transform_mediaGroupNode (m : List (String × String)) (names : List String)
    (hn : ∀ f ∈ names, f ≠ "") :
    transform m (mediaGroupNode names) = .ok (mediaGroupResult m names) := by
  cases names with
  | nil => rfl
  | cons f rest =>
    have hpg := processGroup_mediaItems m (f :: rest) hn
    have hstep : transform m (mediaGroupNode (f :: rest)) =
        match processGroup m (mediaItemsOf (f :: rest)) with
        | .error e => .error e
        | .ok paras =>
          match paras with
          | .nil => .ok emptyParagraph
          | .cons _ _ =>
            .ok (.obj (.cons "type" (.str "doc") (.cons "version" (.num 1)
              (.cons "content" (.arr paras) .nil)))) := rfl
    rw [hstep, hpg]
    rfl

theorem transformContent_group (m : List (String × String)) (names : List String)
    (hn : ∀ f ∈ names, f ≠ "") (cs ds : JList) (hcs : transformContent m cs = .ok ds) :
    transformContent m (.cons (mediaGroupNode names) cs) =
      .ok ((if names.isEmpty then JList.cons emptyParagraph .nil
            else groupParagraphs m names).append ds) := by
  unfold transformContent
  rw [transform_mediaGroupNode m names hn, hcs]
  cases names with
  | nil => rfl
  | cons f rest => rfl

/-- C7: a `mediaGroup` child of a parent's `content` sequence with zero
items is replaced by a single empty paragraph; with `k ≥ 1` items it
produces `k` paragraphs (one per item, formed as in the `mediaSingle`
case), spliced directly into the parent's content in place — the
`doc`-typed wrapper does not survive in the output. -/
theorem claim_C7_mediaGroup_splice (m : List (String × String)) (names : List String)
    (hn : ∀ f ∈ names, f ≠ "") (pt : String)
    (hp1 : pt ≠ "mediaSingle") (hp2 : pt ≠ "mediaGroup") (hp3 : pt ≠ "media")
    (cs ds : JList) (hcs : transformContent m cs = .ok ds) :
    transform m (.obj (.cons "type" (.str pt)
        (.cons "content" (.arr (.cons (mediaGroupNode names) cs)) .nil))) =
      .ok (.obj (.cons "type" (.str pt)
        (.cons "content" (.arr ((if names.isEmpty then JList.cons emptyParagraph .nil
          else groupParagraphs m names).append ds)) .nil))) := by
  have hcg := transformContent_group m names hn cs ds hcs
  have hTF2 : transformFields m
      (.cons "content" (.arr (.cons (mediaGroupNode names) cs)) .nil) =
      .ok (.cons "content" (.arr ((if names.isEmpty then JList.cons emptyParagraph .nil
        else groupParagraphs m names).append ds)) .nil) := by
    have hstep : transformFields m
        (.cons "content" (.arr (.cons (mediaGroupNode names) cs)) .nil) =
        match transformContent m (.cons (mediaGroupNode names) cs) with
        | .error e => .error e
        | .ok l2 => .ok (.cons "content" (.arr l2) .nil) := rfl
    rw [hstep, hcg]
  have hTF : transformFields m (.cons "type" (.str pt)
      (.cons "content" (.arr (.cons (mediaGroupNode names) cs)) .nil)) =
      .ok (.cons "type" (.str pt)
        (.cons "content" (.arr ((if names.isEmpty then JList.cons emptyParagraph .nil
          else groupParagraphs m names).append ds)) .nil)) := by
    rw [transformFields_cons_nonarr m "type" (.str pt) _ (fun l h => nomatch h)]
    rw [transform_atom m (.str pt) rfl, hTF2]
  unfold transform
  split
  · rename_i heq
    simp [pyGet] at heq
    exact absurd heq hp1
  · rename_i heq
    simp [pyGet] at heq
    exact absurd heq hp2
  · rename_i heq
    simp [pyGet] at heq
    exact absurd heq hp3
  · rw [hTF]

/-- Witness for C7 at the spec's own example: a `mediaGroup` with children
`a.png`, `b.png` and the empty mapping, inside a `doc` parent. -/
theorem claim_C7_witness :
    transform [] (.obj (.cons "type" (.str "doc")
        (.cons "content" (.arr (.cons (mediaGroupNode ["a.png", "b.png"]) .nil)) .nil))) =
      .ok (.obj (.cons "type" (.str "doc")
        (.cons "content" (.arr ((if (["a.png", "b.png"] : List String).isEmpty
          then JList.cons emptyParagraph .nil
          else groupParagraphs [] ["a.png", "b.png"]).append .nil)) .nil))) :=
  claim_C7_mediaGroup_splice [] ["a.png", "b.png"] (by decide) "doc"
    (by decide) (by decide) (by decide) .nil .nil rfl

/-- C2: whenever the rewritten root is `doc`-typed and the mapping holds at
least one entry (all URLs being non-empty, as the `filename_to_url`
construction guarantees), the output appends exactly two trailing nodes to
the root content: the `"Attachments:"` paragraph followed by the
`bulletList` holding one linked `listItem` per mapping entry
(`trailingNodes`); when the root has no `content` key, `setdefault` adds
it as a new last key holding just those two nodes; and with the empty
mapping nothing is ever appended. -/
theorem claim_C2_trailing_attachments (m : List (String × String)) (hm : m ≠ [])
    (hv : ∀ p ∈ m, p.2 ≠ "") (t : JVal) (fs : JFields)
    (ht : transform m t = .ok (.obj fs)) (hd : pyGet fs "type" = some (.str "doc")) :
    (∀ l, pyGet fs "content" = some (.arr l) →
      replace_media_with_links m t =
        .ok (.obj (setField fs "content" (.arr (l.append (trailingNodes m)))))) ∧
    (pyGet fs "content" = none →
      replace_media_with_links m t =
        .ok (.obj (fs.append (.cons "content" (.arr (trailingNodes m)) .nil)))) ∧
    (∀ t2, replace_media_with_links [] t2 = transform [] t2) := by
  have hne : ((m.map (fun p => p.2)).filter (fun u => u ≠ "")).isEmpty = false := by
    rcases m with _ | ⟨p, r⟩
    · exact absurd rfl hm
    · have hp : p.2 ≠ "" := hv p (by simp)
      simp [List.filter_cons, hp]
  refine ⟨?_, ?_, ?_⟩
  · intro l hcl
    unfold replace_media_with_links adf_replace_media_with_attachment_links
    rw [ht]
    dsimp only
    split
    · rw [hne]
      simp only [Bool.false_eq_true, if_false]
      unfold appendAttachments
      rw [hcl]
    · rename_i hno
      exact absurd hd hno
  · intro hcl
    unfold replace_media_with_links adf_replace_media_with_attachment_links
    rw [ht]
    dsimp only
    split
    · rw [hne]
      simp only [Bool.false_eq_true, if_false]
      unfold appendAttachments
      rw [hcl]
    · rename_i hno
      exact absurd hd hno
  · intro t2
    exact replace_no_urls [] (by simp) t2

/-- Witness for C2 at the spec's own example: a `doc` with no media nodes
and the non-empty mapping `c.png ↦ https://x/c.png` still gets the
trailing attachments paragraph and bullet list. -/
theorem claim_C2_witness :
    replace_media_with_links [("c.png", "https://x/c.png")] emptyDocNode =
      .ok (.obj (setField
        (.cons "type" (.str "doc") (.cons "content" (.arr .nil) .nil))
        "content"
        (.arr (JList.nil.append (trailingNodes [("c.png", "https://x/c.png")]))))) :=
  (claim_C2_trailing_attachments [("c.png", "https://x/c.png")] (by decide)
    (by decide) emptyDocNode
    (.cons "type" (.str "doc") (.cons "content" (.arr .nil) .nil))
    (by decide) (by decide)).1 .nil (by decide)

/-- Concatenation of a list of strings with no separator (the claim's
reading of "concatenation in document order"). -/
def concatAll : List String → String
  | [] => ""
  | s :: r => s ++ concatAll r

theorem concatAll_append (a b : List String) :
    concatAll (a ++ b) = concatAll a ++ concatAll b := by
  induction a with
  | nil => simp [concatAll]
  | cons s r ih => simp [concatAll, ih, String.append_assoc]

theorem extract_eq_collect_all :
    (∀ v, extract_text_from_adf v = concatAll (collectTexts v)) ∧
    (∀ l, (extractList l = concatAll (collectTextsList l)) ∧ True) ∧
    (∀ fs, extractFields fs = concatAll (collectTextsFields fs)) := by
  refine jval_mutual_ind
    (fun v => extract_text_from_adf v = concatAll (collectTexts v))
    (fun l => (extractList l = concatAll (collectTextsList l)) ∧ True)
    (fun fs => extractFields fs = concatAll (collectTextsFields fs))
    ?_ ?_ ?_ ?_ ?_ ?_ ?_ ?_ ?_ ?_ ?_
  · intro s
    rfl
  · intro n
    rfl
  · intro b
    rfl
  · rfl
  · intro l hQ
    simpa [extract_text_from_adf, collectTexts] using hQ.1
  · intro fs hR
    by_cases hmed : isMediaTy (pyGet fs "type") = true
    · simp [extract_text_from_adf, collectTexts, hmed, concatAll]
    · have hm2 : isMediaTy (pyGet fs "type") = false := by
        simpa using hmed
      simp only [extract_text_from_adf, collectTexts, hm2, Bool.false_eq_true, if_false]
      rw [concatAll_append, hR]
      congr 1
      split
      · simp [concatAll]
      · rfl
  · exact ⟨rfl, trivial⟩
  · intro v tl hP hQ
    refine ⟨?_, trivial⟩
    simp only [extractList, collectTextsList, concatAll_append, hP, hQ.1]
  · rfl
  · intro k l tl hQ hR
    simp only [extractFields, collectTextsFields, concatAll_append, hR]
    have : extract_text_from_adf (.arr l) = concatAll (collectTexts (.arr l)) := by
      simpa [extract_text_from_adf, collectTexts] using hQ.1
    rw [this]
  · intro k v tl hv hP hR
    simp only [extractFields, collectTextsFields, concatAll_append, hP, hR]

/-- The spec's example document: text nodes `"Hello "` and `"world"` with a
sibling `media` node. -/
def helloWorldDoc : JVal :=
  .obj (.cons "type" (.str "doc") (.cons "content" (.arr
    (.cons (.obj (.cons "type" (.str "text") (.cons "text" (.str "Hello ") .nil)))
    (.cons (.obj (.cons "type" (.str "media") .nil))
    (.cons (.obj (.cons "type" (.str "text") (.cons "text" (.str "world") .nil)))
      .nil)))) .nil))

/-- C6: `extract_text_from_adf` returns exactly the separator-free
concatenation, in document order, of the `text` values of `text`-typed
nodes lying outside media-family subtrees (`collectTexts`, written from
the spec); in particular the spec's example document yields
`"Hello world"` with the media sibling contributing nothing. -/
theorem claim_C6_extract_plain_text :
    (∀ t, extract_text_from_adf t = concatAll (collectTexts t)) ∧
    extract_text_from_adf helloWorldDoc = "Hello world" :=
  ⟨extract_eq_collect_all.1, rfl⟩

/-- C9: on an absent (`None`) or empty input tree the extractor returns
the empty string, and the rewriter returns the input unchanged — an
effectively empty document — for every mapping. -/
theorem claim_C9_empty_inputs :
    extract_text_from_adf .null = "" ∧
    extract_text_from_adf (.obj .nil) = "" ∧
    extract_text_from_adf (.arr .nil) = "" ∧
    (∀ m, replace_media_with_links m .null = .ok .null) ∧
    (∀ m, replace_media_with_links m (.obj .nil) = .ok (.obj .nil)) :=
  ⟨rfl, rfl, rfl, fun _ => rfl, fun _ => rfl⟩

/-- C10: the CLI driver passes a `parent_key` keyword argument that
`clone_issue_with_media_upload` does not declare, so Python keyword
binding raises `TypeError` before the method body (issue creation, tree
transforms) can run. -/
theorem claim_C10_cli_parent_key_type_error :
    bindKeywords clone_issue_with_media_upload_params cli_clone_call_keywords =
      .error .typeError ∧
    "parent_key" ∈ cli_clone_call_keywords ∧
    "parent_key" ∉ clone_issue_with_media_upload_params :=
  ⟨rfl, by decide, by decide⟩

/-- Every element of the list is a dict. -/
def allObjs : JList → Bool
  | .nil => true
  | .cons (.obj _) tl => allObjs tl
  | .cons _ _ => false

/-- Every dict value is an atom (no nested list or dict). -/
def atomVals : JFields → Bool
  | .nil => true
  | .cons _ v tl => isAtom v && atomVals tl

/-- Shape condition on one dict: its `content`, when present, is a list of
dicts, and its `attrs`, when present, is a dict of atoms. -/
def wfContentAttrs (fs : JFields) : Bool :=
  (match pyGet fs "content" with
   | none => true
   | some (.arr l) => allObjs l
   | some _ => false) &&
  (match pyGet fs "attrs" with
   | none => true
   | some (.obj as1) => atomVals as1
   | some _ => false)

mutual
/-- Well-shaped ADF trees: every dict in the tree satisfies
`wfContentAttrs`.  On these `replace_media_with_links` never raises. -/
def wfV : JVal → Bool
  | .obj fs => wfContentAttrs fs && wfF fs
  | .arr l => wfL l
  | _ => true
/-- `wfV` over list elements. -/
def wfL : JList → Bool
  | .nil => true
  | .cons v tl => wfV v && wfL tl
/-- `wfV` over dict values. -/
def wfF : JFields → Bool
  | .nil => true
  | .cons _ v tl => wfV v && wfF tl
end

theorem atomVals_getD (k : String) :
    ∀ as1, atomVals as1 = true → isAtom ((pyGet as1 k).getD .null) = true := by
  refine jfieldsInd _ ?_ ?_
  · intro _
    rfl
  · intro k2 v tl ih h
    simp only [atomVals, Bool.and_eq_true] at h
    by_cases hk : k2 = k
    · simp only [pyGet, if_pos hk, Option.getD_some]
      exact h.1
    · simp only [pyGet, if_neg hk]
      exact ih h.2

theorem lookupUrl_atom_ok (m : List (String × String)) (f : JVal)
    (h : isAtom f = true) : ∃ r, lookupUrl m f = .ok r := by
  rcases f with s | n | b | _ | l | fs <;> simp [isAtom] at h <;>
    exact ⟨_, rfl⟩

theorem getFilename_noattrs (gs : JFields) (ha : pyGet gs "attrs" = none) :
    getFilename (.obj gs) = .ok .null := by
  unfold getFilename
  dsimp only
  rw [ha]
  rfl

theorem getFilename_attrs (gs as1 : JFields) (ha : pyGet gs "attrs" = some (.obj as1)) :
    getFilename (.obj gs) =
      (if pyTruthy ((pyGet as1 "fileName").getD .null) = true
       then .ok ((pyGet as1 "fileName").getD .null)
       else .ok ((pyGet as1 "name").getD .null)) := by
  unfold getFilename
  dsimp only
  rw [ha]
  rfl

theorem getFilename_wf_ok (gs : JFields) (h : wfContentAttrs gs = true) :
    ∃ f, getFilename (.obj gs) = .ok f ∧ isAtom f = true := by
  have hattrs : (match pyGet gs "attrs" with
      | none => true
      | some (.obj as1) => atomVals as1
      | some _ => false) = true := by
    simp only [wfContentAttrs, Bool.and_eq_true] at h
    exact h.2
  rcases ha : pyGet gs "attrs" with _ | w
  · exact ⟨.null, getFilename_noattrs gs ha, rfl⟩
  · rw [ha] at hattrs
    rcases w with s | n | b | _ | l | as1 <;> simp at hattrs
    rw [getFilename_attrs gs as1 ha]
    by_cases ht : pyTruthy ((pyGet as1 "fileName").getD .null) = true
    · rw [if_pos ht]
      exact ⟨_, rfl, atomVals_getD "fileName" as1 hattrs⟩
    · rw [if_neg ht]
      exact ⟨_, rfl, atomVals_getD "name" as1 hattrs⟩

/-- A rewritten node is post-pass safe: if it is a dict, its `content` is
absent or a list (so the trailing `.append` cannot raise). -/
def contentOK (u : JVal) : Prop :=
  ∀ gs, u = .obj gs →
    (pyGet gs "content" = none ∨ ∃ l2, pyGet gs "content" = some (.arr l2))

theorem make_link_paragraph_contentOK (f : JVal) (r : Option String) :
    contentOK (make_link_paragraph f r) := by
  intro gs h
  rcases r with _ | u
  · rw [← JVal.obj.inj h]
    right
    exact ⟨_, rfl⟩
  · by_cases hu : u = ""
    · simp only [make_link_paragraph, hu, if_pos rfl] at h
      rw [← JVal.obj.inj h]
      right
      exact ⟨_, rfl⟩
    · simp only [make_link_paragraph, if_neg hu] at h
      rw [← JVal.obj.inj h]
      right
      exact ⟨_, rfl⟩

theorem emptyParagraph_contentOK : contentOK emptyParagraph := by
  intro gs h
  rw [← JVal.obj.inj h]
  right
  exact ⟨_, rfl⟩

theorem transformMediaItem_wf_ok (m : List (String × String)) (gs : JFields)
    (h : wfContentAttrs gs = true) :
    ∃ p, transformMediaItem m (.obj gs) = .ok p ∧ contentOK p := by
  obtain ⟨f, hgf, hatom⟩ := getFilename_wf_ok gs h
  obtain ⟨r, hr⟩ := lookupUrl_atom_ok m f hatom
  refine ⟨make_link_paragraph (if pyTruthy f = true then f else .str "image") r, ?_,
    make_link_paragraph_contentOK _ r⟩
  unfold transformMediaItem
  rw [hgf]
  dsimp only
  rw [hr]

theorem processGroup_wf_ok (m : List (String × String)) :
    ∀ l, allObjs l = true → wfL l = true → ∃ ps, processGroup m l = .ok ps := by
  refine jlistInd (fun l => allObjs l = true → wfL l = true →
    ∃ ps, processGroup m l = .ok ps) ?_ ?_
  · intro _ _
    exact ⟨.nil, rfl⟩
  · intro v tl ih ho hw
    rcases v with s | n | b | _ | l2 | gs <;> simp [allObjs] at ho
    simp only [wfL, Bool.and_eq_true] at hw
    have hwc : wfContentAttrs gs = true := by
      have := hw.1
      simp only [wfV, Bool.and_eq_true] at this
      exact this.1
    obtain ⟨p, hp, _⟩ := transformMediaItem_wf_ok m gs hwc
    obtain ⟨ps, hps⟩ := ih ho hw.2
    refine ⟨.cons p ps, ?_⟩
    unfold processGroup
    rw [hp]
    dsimp only
    rw [hps]

theorem transform_obj_mediaSingle (m : List (String × String)) (fs : JFields)
    (hty : pyGet fs "type" = some (.str "mediaSingle")) :
    transform m (.obj fs) =
      match (match pyGet fs "content" with
             | some v => if pyTruthy v = true then subscript0 v else .ok (.obj .nil)
             | none => .ok (.obj .nil)) with
      | .error e => .error e
      | .ok media => transformMediaItem m media := by
  unfold transform
  rw [hty]
  rfl

theorem transform_obj_mediaGroup (m : List (String × String)) (fs : JFields)
    (hty : pyGet fs "type" = some (.str "mediaGroup")) :
    transform m (.obj fs) =
      match (if pyTruthy ((pyGet fs "content").getD (.arr .nil)) = true
             then iterTruthy ((pyGet fs "content").getD (.arr .nil))
             else .ok .nil) with
      | .error e => .error e
      | .ok its =>
        match processGroup m its with
        | .error e => .error e
        | .ok paras =>
          match paras with
          | .nil => .ok emptyParagraph
          | .cons _ _ =>
            .ok (.obj (.cons "type" (.str "doc") (.cons "version" (.num 1)
              (.cons "content" (.arr paras) .nil)))) := by
  unfold transform
  rw [hty]
  rfl

theorem transform_obj_media (m : List (String × String)) (fs : JFields)
    (hty : pyGet fs "type" = some (.str "media")) :
    transform m (.obj fs) = transformMediaItem m (.obj fs) := by
  unfold transform
  rw [hty]
  rfl

theorem transform_obj_generic (m : List (String × String)) (fs : JFields)
    (h1 : pyGet fs "type" ≠ some (.str "mediaSingle"))
    (h2 : pyGet fs "type" ≠ some (.str "mediaGroup"))
    (h3 : pyGet fs "type" ≠ some (.str "media")) :
    transform m (.obj fs) =
      match transformFields m fs with
      | .error e => .error e
      | .ok gs => .ok (.obj gs) := by
  unfold transform
  split
  · rename_i heq
    exact absurd heq h1
  · rename_i heq
    exact absurd heq h2
  · rename_i heq
    exact absurd heq h3
  · rfl

theorem wfF_pyGet (k : String) (v : JVal) :
    ∀ fs, wfF fs = true → pyGet fs k = some v → wfV v = true := by
  refine jfieldsInd _ ?_ ?_
  · intro _ hg
    simp [pyGet] at hg
  · intro k2 w tl ih h hg
    simp only [wfF, Bool.and_eq_true] at h
    by_cases hk : k2 = k
    · rw [pyGet, if_pos hk] at hg
      rw [← Option.some.inj hg]
      exact h.1
    · rw [pyGet, if_neg hk] at hg
      exact ih h.2 hg

theorem isOk_exists (x : Except PyErr JList) (h : x.isOk = true) :
    ∃ r, x = .ok r := by
  rcases x with e | r
  · simp [Except.isOk, Except.toBool] at h
  · exact ⟨r, rfl⟩

theorem transformContent_cons_ok (m : List (String × String)) (v : JVal)
    (tl : JList) (tc : JVal) (tcs : JList) (h1 : transform m v = .ok tc)
    (h2 : transformContent m tl = .ok tcs) :
    ∃ r, transformContent m (.cons v tl) = .ok r := by
  apply isOk_exists
  unfold transformContent
  rw [h1]
  dsimp only
  rw [h2]
  dsimp only
  split
  all_goals try rfl
  split <;> rfl

theorem transform_wf_total (m : List (String × String)) :
    (∀ v, wfV v = true → ∃ u, transform m v = .ok u ∧ contentOK u) ∧
    (∀ l, (wfL l = true → ∃ l2, transformList m l = .ok l2) ∧
          (wfL l = true → ∃ l2, transformContent m l = .ok l2)) ∧
    (∀ fs, wfF fs = true → ∃ gs, transformFields m fs = .ok gs ∧
          (pyGet fs "content" = none → pyGet gs "content" = none) ∧
          (∀ l, pyGet fs "content" = some (.arr l) →
            ∃ l2, pyGet gs "content" = some (.arr l2))) := by
  refine jval_mutual_ind
    (fun v => wfV v = true → ∃ u, transform m v = .ok u ∧ contentOK u)
    (fun l => (wfL l = true → ∃ l2, transformList m l = .ok l2) ∧
              (wfL l = true → ∃ l2, transformContent m l = .ok l2))
    (fun fs => wfF fs = true → ∃ gs, transformFields m fs = .ok gs ∧
              (pyGet fs "content" = none → pyGet gs "content" = none) ∧
              (∀ l, pyGet fs "content" = some (.arr l) →
                ∃ l2, pyGet gs "content" = some (.arr l2)))
    ?_ ?_ ?_ ?_ ?_ ?_ ?_ ?_ ?_ ?_ ?_
  · intro s _
    exact ⟨.str s, transform_atom m (.str s) rfl, fun gs h => nomatch h⟩
  · intro n _
    exact ⟨.num n, transform_atom m (.num n) rfl, fun gs h => nomatch h⟩
  · intro b _
    exact ⟨.bool b, transform_atom m (.bool b) rfl, fun gs h => nomatch h⟩
  · intro _
    exact ⟨.null, transform_atom m .null rfl, fun gs h => nomatch h⟩
  · intro l hQ hw
    obtain ⟨l2, hl2⟩ := hQ.1 (by simpa [wfV] using hw)
    refine ⟨.arr l2, ?_, fun gs h => nomatch h⟩
    unfold transform
    rw [hl2]
  · -- obj
    intro fs hR hw
    obtain ⟨hca, hwf⟩ : wfContentAttrs fs = true ∧ wfF fs = true := by
      simpa [wfV, Bool.and_eq_true] using hw
    have hcontent : (match pyGet fs "content" with
        | none => true
        | some (.arr l) => allObjs l
        | some _ => false) = true := by
      simp only [wfContentAttrs, Bool.and_eq_true] at hca
      exact hca.1
    have hgeneric : pyGet fs "type" ≠ some (.str "mediaSingle") →
        pyGet fs "type" ≠ some (.str "mediaGroup") →
        pyGet fs "type" ≠ some (.str "media") →
        ∃ u, transform m (.obj fs) = .ok u ∧ contentOK u := by
      intro h1 h2 h3
      obtain ⟨gs, htf, hnone, harr⟩ := hR hwf
      refine ⟨.obj gs, ?_, ?_⟩
      · rw [transform_obj_generic m fs h1 h2 h3, htf]
      · intro gs0 heq
        rw [← JVal.obj.inj heq]
        rcases hc : pyGet fs "content" with _ | cv
        · exact Or.inl (hnone hc)
        · rw [hc] at hcontent
          rcases cv with s | n | b | _ | l | fs2 <;> simp at hcontent
          exact Or.inr (harr l hc)
    have hsingle : pyGet fs "type" = some (.str "mediaSingle") →
        ∃ u, transform m (.obj fs) = .ok u ∧ contentOK u := by
      intro hty
      rw [transform_obj_mediaSingle m fs hty]
      rcases hc : pyGet fs "content" with _ | cv
      · obtain ⟨p, hp, hok⟩ := transformMediaItem_wf_ok m .nil rfl
        exact ⟨p, hp, hok⟩
      · rw [hc] at hcontent
        rcases cv with s | n | b | _ | l | fs2 <;> simp at hcontent
        rcases l with _ | ⟨x, r⟩
        · obtain ⟨p, hp, hok⟩ := transformMediaItem_wf_ok m .nil rfl
          exact ⟨p, hp, hok⟩
        · have hx : ∃ xs, x = JVal.obj xs := by
            rcases x with s | n | b | _ | l2 | xs <;> simp [allObjs] at hcontent
            exact ⟨xs, rfl⟩
          obtain ⟨xs, hxs⟩ := hx
          have hwx : wfV x = true := by
            have : wfV (.arr (.cons x r)) = true := wfF_pyGet "content" _ fs hwf hc
            simp only [wfV, wfL, Bool.and_eq_true] at this
            exact this.1
          have hwcx : wfContentAttrs xs = true := by
            rw [hxs] at hwx
            simp only [wfV, Bool.and_eq_true] at hwx
            exact hwx.1
          obtain ⟨p, hp, hok⟩ := transformMediaItem_wf_ok m xs hwcx
          refine ⟨p, ?_, hok⟩
          show transformMediaItem m x = Except.ok p
          rw [hxs]
          exact hp
    have hgroup : pyGet fs "type" = some (.str "mediaGroup") →
        ∃ u, transform m (.obj fs) = .ok u ∧ contentOK u := by
      intro hty
      rw [transform_obj_mediaGroup m fs hty]
      rcases hc : pyGet fs "content" with _ | cv
      · exact ⟨emptyParagraph, rfl, emptyParagraph_contentOK⟩
      · rw [hc] at hcontent
        rcases cv with s | n | b | _ | l | fs2 <;> simp at hcontent
        rcases l with _ | ⟨x, r⟩
        · exact ⟨emptyParagraph, rfl, emptyParagraph_contentOK⟩
        · have hwl : wfL (.cons x r) = true := by
            have : wfV (.arr (.cons x r)) = true := wfF_pyGet "content" _ fs hwf hc
            simpa [wfV] using this
          obtain ⟨ps, hps⟩ := processGroup_wf_ok m (.cons x r) hcontent hwl
          rcases ps with _ | ⟨p, pr⟩
          · refine ⟨emptyParagraph, ?_, emptyParagraph_contentOK⟩
            show (match processGroup m (.cons x r) with
                  | .error e => Except.error e
                  | .ok paras =>
                    match paras with
                    | .nil => Except.ok emptyParagraph
                    | .cons _ _ =>
                      Except.ok (.obj (.cons "type" (.str "doc")
                        (.cons "version" (.num 1)
                          (.cons "content" (.arr paras) .nil))))) =
                Except.ok emptyParagraph
            rw [hps]
          · refine ⟨.obj (.cons "type" (.str "doc") (.cons "version" (.num 1)
              (.cons "content" (.arr (JList.cons p pr)) .nil))), ?_, ?_⟩
            · show (match processGroup m (.cons x r) with
                  | .error e => Except.error e
                  | .ok paras =>
                    match paras with
                    | .nil => Except.ok emptyParagraph
                    | .cons _ _ =>
                      Except.ok (.obj (.cons "type" (.str "doc")
                        (.cons "version" (.num 1)
                          (.cons "content" (.arr paras) .nil))))) = _
              rw [hps]
            · intro gs0 heq
              rw [← JVal.obj.inj heq]
              right
              exact ⟨_, rfl⟩
    rcases hty : pyGet fs "type" with _ | w
    · exact hgeneric (by simp [hty]) (by simp [hty]) (by simp [hty])
    · rcases w with s | n | b | _ | l | fs2
      · by_cases h1 : s = "mediaSingle"
        · exact hsingle (h1 ▸ hty)
        · by_cases h2 : s = "mediaGroup"
          · exact hgroup (h2 ▸ hty)
          · by_cases h3 : s = "media"
            · rw [transform_obj_media m fs (h3 ▸ hty)]
              exact transformMediaItem_wf_ok m fs hca
            · exact hgeneric (by simp [hty, h1]) (by simp [hty, h2]) (by simp [hty, h3])
      · exact hgeneric (by simp [hty]) (by simp [hty]) (by simp [hty])
      · exact hgeneric (by simp [hty]) (by simp [hty]) (by simp [hty])
      · exact hgeneric (by simp [hty]) (by simp [hty]) (by simp [hty])
      · exact hgeneric (by simp [hty]) (by simp [hty]) (by simp [hty])
      · exact hgeneric (by simp [hty]) (by simp [hty]) (by simp [hty])
  · -- list nil
    exact ⟨fun _ => ⟨.nil, rfl⟩, fun _ => ⟨.nil, rfl⟩⟩
  · -- list cons
    intro v tl hP hQ
    constructor
    · intro hw
      obtain ⟨h1, h2⟩ : wfV v = true ∧ wfL tl = true := by
        simpa [wfL, Bool.and_eq_true] using hw
      obtain ⟨u, hu, _⟩ := hP h1
      obtain ⟨l2, hl2⟩ := hQ.1 h2
      refine ⟨.cons u l2, ?_⟩
      unfold transformList
      rw [hu]
      dsimp only
      rw [hl2]
    · intro hw
      obtain ⟨h1, h2⟩ : wfV v = true ∧ wfL tl = true := by
        simpa [wfL, Bool.and_eq_true] using hw
      obtain ⟨u, hu, _⟩ := hP h1
      obtain ⟨l2, hl2⟩ := hQ.2 h2
      exact transformContent_cons_ok m v tl u l2 hu hl2
  · -- fields nil
    intro _
    exact ⟨.nil, rfl, fun _ => rfl, fun l h => by simp [pyGet] at h⟩
  · -- fields cons, arr value
    intro k l tl hQ hR hw
    obtain ⟨h1, h2⟩ : wfV (.arr l) = true ∧ wfF tl = true := by
      simpa [wfF, Bool.and_eq_true] using hw
    obtain ⟨gs, htf, hnone, harr⟩ := hR h2
    by_cases hk : k = "content"
    · obtain ⟨l2, hl2⟩ := hQ.2 (by simpa [wfV] using h1)
      refine ⟨.cons k (.arr l2) gs, ?_, ?_, ?_⟩
      · subst hk
        unfold transformFields
        rw [if_pos rfl, hl2]
        dsimp only
        rw [htf]
      · intro hg
        rw [pyGet, if_pos hk] at hg
        cases hg
      · intro l3 hg
        rw [pyGet, if_pos hk] at hg ⊢
        exact ⟨l2, rfl⟩
    · obtain ⟨l2, hl2⟩ := hQ.1 (by simpa [wfV] using h1)
      refine ⟨.cons k (.arr l2) gs, ?_, ?_, ?_⟩
      · unfold transformFields
        rw [if_neg hk, hl2]
        dsimp only
        rw [htf]
      · intro hg
        rw [pyGet, if_neg hk] at hg ⊢
        exact hnone hg
      · intro l3 hg
        rw [pyGet, if_neg hk] at hg ⊢
        exact harr l3 hg
  · -- fields cons, non-arr value
    intro k v tl hv hP hR hw
    obtain ⟨h1, h2⟩ : wfV v = true ∧ wfF tl = true := by
      simpa [wfF, Bool.and_eq_true] using hw
    obtain ⟨u, hu, _⟩ := hP h1
    obtain ⟨gs, htf, hnone, harr⟩ := hR h2
    refine ⟨.cons k u gs, ?_, ?_, ?_⟩
    · rw [transformFields_cons_nonarr m k v tl hv, hu]
      dsimp only
      rw [htf]
    · intro hg
      by_cases hk : k = "content"
      · rw [pyGet, if_pos hk] at hg
        cases hg
      · rw [pyGet, if_neg hk] at hg ⊢
        exact hnone hg
    · intro l3 hg
      by_cases hk : k = "content"
      · rw [pyGet, if_pos hk] at hg
        exact absurd (Option.some.inj hg) (fun hcon => hv l3 hcon)
      · rw [pyGet, if_neg hk] at hg ⊢
        exact harr l3 hg

/-- C5 counterexample: `replace_media_with_links` is not total over
arbitrary tree shapes.  On a `mediaSingle` whose `content` field is the
number `5` (truthy but not subscriptable), the code raises `TypeError` at
`node.get('content', [\x7b\x7d])[0]`. -/
theorem claim_C5_counterexample :
    replace_media_with_links []
      (.obj (.cons "type" (.str "mediaSingle") (.cons "content" (.num 5) .nil))) =
      .error .typeError := by decide

/-- C5 (amended): `extract_text_from_adf` is total over arbitrary trees
(its embedding returns a string for every input by construction), and
`replace_media_with_links` returns a result without raising on every
well-shaped tree (`wfV`: each dict's `content`, when present, is a list of
dicts and its `attrs`, when present, a dict of non-container values); on
malformed media shapes outside `wfV` it can raise. -/
theorem claim_C5_total_on_wellshaped (m : List (String × String)) (t : JVal)
    (h : wfV t = true) : (replace_media_with_links m t).isOk = true := by
  obtain ⟨u, hu, hcOK⟩ := (transform_wf_total m).1 t h
  unfold replace_media_with_links adf_replace_media_with_attachment_links
  rw [hu]
  dsimp only
  rcases u with s | n | b | _ | l | gs
  · rfl
  · rfl
  · rfl
  · rfl
  · rfl
  · split
    · rename_i as1 heqobj
      have hgs : gs = as1 := JVal.obj.inj heqobj
      subst hgs
      split
      · split
        · rfl
        · unfold appendAttachments
          rcases hcOK gs rfl with hnone | ⟨l2, harr⟩
          · rw [hnone]
            rfl
          · rw [harr]
            rfl
      · rfl
    · rename_i hno
      exact absurd rfl (hno gs)

/-- Witness for C5 (amended) on a well-shaped `mediaSingle` document. -/
theorem claim_C5_witness :
    (replace_media_with_links [("a.png", "https://x/a.png")]
      (mediaSingleNode "fileName" "a.png")).isOk = true :=
  claim_C5_total_on_wellshaped [("a.png", "https://x/a.png")]
    (mediaSingleNode "fileName" "a.png") (by decide)

mutual
/-- `JVal` instrumented with allocation identities on the two mutable
container kinds (Python lists and dicts), to state aliasing/mutation
claims: a container in the rewriter's output never carries the identity
of an input container, so the in-place post-pass appends touch only
freshly allocated objects and the input tree is left intact. -/
inductive HVal : Type where
  | str (s : String)
  | num (n : Int)
  | bool (b : Bool)
  | null
  | arr (id : Nat) (elems : HList)
  | obj (id : Nat) (fields : HFields)
  deriving DecidableEq
/-- Identity-carrying list. -/
inductive HList : Type where
  | nil
  | cons (hd : HVal) (tl : HList)
  deriving DecidableEq
/-- Identity-carrying dict items. -/
inductive HFields : Type where
  | nil
  | cons (key : String) (val : HVal) (tl : HFields)
  deriving DecidableEq
end

/-- `d.get(key)` on an instrumented dict. -/
def hPyGet : HFields → String → Option HVal
  | .nil, _ => none
  | .cons k v tl, key => if k = key then some v else hPyGet tl key

/-- Truthiness on instrumented values. -/
def hTruthy : HVal → Bool
  | .str s => s ≠ ""
  | .num n => n ≠ 0
  | .bool b => b
  | .null => false
  | .arr _ .nil => false
  | .arr _ (.cons _ _) => true
  | .obj _ .nil => false
  | .obj _ (.cons _ _ _) => true

/-- In-place element append keeps the list identity; only elements move. -/
def HList.append : HList → HList → HList
  | .nil, l => l
  | .cons v tl, l => .cons v (tl.append l)

/-- Adding a key at the end of a dict (for `setdefault`). -/
def HFields.append : HFields → HFields → HFields
  | .nil, l => l
  | .cons k v tl, l => .cons k v (tl.append l)

/-- In-place `d[key] = v` on an instrumented dict. -/
def hSetField : HFields → String → HVal → HFields
  | .nil, _, _ => .nil
  | .cons k v tl, key, w => if k = key then .cons k w tl else .cons k v (hSetField tl key w)

mutual
/-- `i` is the identity of some container inside the value. -/
def hasIdV (i : Nat) : HVal → Bool
  | .arr j l => (i = j) || hasIdL i l
  | .obj j fs => (i = j) || hasIdF i fs
  | _ => false
/-- `hasIdV` over list elements (and the list members themselves). -/
def hasIdL (i : Nat) : HList → Bool
  | .nil => false
  | .cons v tl => hasIdV i v || hasIdL i tl
/-- `hasIdV` over dict values. -/
def hasIdF (i : Nat) : HFields → Bool
  | .nil => false
  | .cons _ v tl => hasIdV i v || hasIdF i tl
end

/-- Instrumented `media.get('attrs', \x7b\x7d)...` chain; the temporary
default empty dict is read-only and discarded, so its identity (0) never
reaches any output. -/
def hGetFilename : HVal → Except PyErr HVal
  | .obj _ gs =>
    match (hPyGet gs "attrs").getD (.obj 0 .nil) with
    | .obj _ as1 =>
      let fn := (hPyGet as1 "fileName").getD .null
      if hTruthy fn then .ok fn else .ok ((hPyGet as1 "name").getD .null)
    | _ => .error .attributeError
  | _ => .error .attributeError

/-- Instrumented `filename_to_url.get(filename)`. -/
def hLookupUrl (m : List (String × String)) : HVal → Except PyErr (Option String)
  | .str s => .ok (lookupStr m s)
  | .arr _ _ => .error .typeError
  | .obj _ _ => .error .typeError
  | _ => .ok none

/-- Instrumented `make_link_paragraph`: every dict and list literal in the
Python source allocates a fresh identity from the counter. -/
def hMakeLinkParagraph (filename : HVal) (url : Option String) (c : Nat) : HVal × Nat :=
  let text := if hTruthy filename then filename else .str "attachment"
  match url with
  | some u =>
    if u = "" then
      (.obj (c+2) (.cons "type" (.str "paragraph")
        (.cons "content" (.arr (c+1) (.cons (.obj c (.cons "type" (.str "text")
          (.cons "text" text .nil))) .nil)) .nil)), c+3)
    else
      (.obj (c+5) (.cons "type" (.str "paragraph")
        (.cons "content" (.arr (c+4) (.cons (.obj (c+3) (.cons "type" (.str "text")
          (.cons "text" text
            (.cons "marks" (.arr (c+2) (.cons (.obj (c+1) (.cons "type" (.str "link")
              (.cons "attrs" (.obj c (.cons "href" (.str u) .nil)) .nil))) .nil))
              .nil)))) .nil)) .nil)), c+6)
  | none =>
    (.obj (c+2) (.cons "type" (.str "paragraph")
      (.cons "content" (.arr (c+1) (.cons (.obj c (.cons "type" (.str "text")
        (.cons "text" text .nil))) .nil)) .nil)), c+3)

/-- Instrumented per-item media rewrite. -/
def hTransformMediaItem (m : List (String × String)) (media : HVal) (c : Nat) :
    Except PyErr (HVal × Nat) :=
  match hGetFilename media with
  | .error e => .error e
  | .ok filename =>
    match hLookupUrl m filename with
    | .error e => .error e
    | .ok url =>
      .ok (hMakeLinkParagraph (if hTruthy filename then filename else .str "image") url c)

/-- Instrumented `v[0]`. -/
def hSubscript0 : HVal → Except PyErr HVal
  | .arr _ (.cons x _) => .ok x
  | .arr _ .nil => .error .indexError
  | .str s =>
    match s.data with
    | ch :: _ => .ok (.str (String.mk [ch]))
    | [] => .error .indexError
  | .obj _ _ => .error .keyError
  | .num _ => .error .typeError
  | .bool _ => .error .typeError
  | .null => .error .typeError

/-- Instrumented iteration over a truthy value. -/
def hIterTruthy : HVal → Except PyErr HList
  | .arr _ l => .ok l
  | .str s => .ok (strChars s.data)
  | .obj _ gs => .ok (objKeys gs)
  | .num _ => .error .typeError
  | .bool _ => .error .typeError
  | .null => .error .typeError
where
  /-- Character atoms of a string. -/
  strChars : List Char → HList
    | [] => .nil
    | ch :: cs => .cons (.str (String.mk [ch])) (strChars cs)
  /-- Key atoms of a dict. -/
  objKeys : HFields → HList
    | .nil => .nil
    | .cons k _ tl => .cons (.str k) (objKeys tl)

/-- Instrumented `mediaGroup` per-item loop, threading the counter. -/
def hProcessGroup (m : List (String × String)) : HList → Nat → Except PyErr (HList × Nat)
  | .nil, c => .ok (.nil, c)
  | .cons x tl, c =>
    match hTransformMediaItem m x c with
    | .error e => .error e
    | .ok (p, c2) =>
      match hProcessGroup m tl c2 with
      | .error e => .error e
      | .ok (ps, c3) => .ok (.cons p ps, c3)

/-- Instrumented empty paragraph (three fresh containers). -/
def hEmptyParagraph (c : Nat) : HVal × Nat :=
  (.obj (c+2) (.cons "type" (.str "paragraph")
    (.cons "content" (.arr (c+1) (.cons (.obj c (.cons "type" (.str "text")
      (.cons "text" (.str "") .nil))) .nil)) .nil)), c+3)

mutual
/-- Instrumented `transform`: the same recursion as `transform`, with every
newly constructed dict or list taking a fresh identity from the counter.
Values returned unchanged (atoms) allocate nothing. -/
def hTransform (m : List (String × String)) : HVal → Nat → Except PyErr (HVal × Nat)
  | .obj _ fs, c =>
    match hPyGet fs "type" with
    | some (.str "mediaSingle") =>
      (match (match hPyGet fs "content" with
              | some v => if hTruthy v then hSubscript0 v else .ok (.obj 0 .nil)
              | none => .ok (.obj 0 .nil)) with
       | .error e => .error e
       | .ok media => hTransformMediaItem m media c)
    | some (.str "mediaGroup") =>
      (match (if hTruthy ((hPyGet fs "content").getD (.arr 0 .nil))
              then hIterTruthy ((hPyGet fs "content").getD (.arr 0 .nil))
              else .ok .nil) with
       | .error e => .error e
       | .ok its =>
         match hProcessGroup m its c with
         | .error e => .error e
         | .ok (paras, c2) =>
           match paras with
           | .nil => .ok (hEmptyParagraph c2)
           | .cons _ _ =>
             .ok (.obj (c2+1) (.cons "type" (.str "doc")
               (.cons "version" (.num 1) (.cons "content" (.arr c2 paras) .nil))), c2+2))
    | some (.str "media") => hTransformMediaItem m (.obj 0 fs) c
    | _ =>
      match hTransformFields m fs c with
      | .error e => .error e
      | .ok (gs, c2) => .ok (.obj c2 gs, c2+1)
  | .arr _ l, c =>
    (match hTransformList m l c with
     | .error e => .error e
     | .ok (l2, c2) => .ok (.arr c2 l2, c2+1))
  | v, c => .ok (v, c)
/-- Instrumented element-wise list rewrite; the comprehension allocates a
fresh list (identity taken by the caller). -/
def hTransformList (m : List (String × String)) : HList → Nat → Except PyErr (HList × Nat)
  | .nil, c => .ok (.nil, c)
  | .cons x tl, c =>
    match hTransform m x c with
    | .error e => .error e
    | .ok (y, c2) =>
      match hTransformList m tl c2 with
      | .error e => .error e
      | .ok (ys, c3) => .ok (.cons y ys, c3)
/-- Instrumented dict rebuild; each list-valued field gets a fresh list. -/
def hTransformFields (m : List (String × String)) : HFields → Nat → Except PyErr (HFields × Nat)
  | .nil, c => .ok (.nil, c)
  | .cons k (.arr _ l) tl, c =>
    if k = "content" then
      match hTransformContent m l c with
      | .error e => .error e
      | .ok (l2, c2) =>
        match hTransformFields m tl (c2+1) with
        | .error e => .error e
        | .ok (tl2, c3) => .ok (.cons k (.arr c2 l2) tl2, c3)
    else
      match hTransformList m l c with
      | .error e => .error e
      | .ok (l2, c2) =>
        match hTransformFields m tl (c2+1) with
        | .error e => .error e
        | .ok (tl2, c3) => .ok (.cons k (.arr c2 l2) tl2, c3)
  | .cons k v tl, c =>
    match hTransform m v c with
    | .error e => .error e
    | .ok (w, c2) =>
      match hTransformFields m tl c2 with
      | .error e => .error e
      | .ok (tl2, c3) => .ok (.cons k w tl2, c3)
/-- Instrumented `content` child loop with splicing; spliced elements keep
their own identities, the discarded wrapper ids are simply never reused. -/
def hTransformContent (m : List (String × String)) : HList → Nat → Except PyErr (HList × Nat)
  | .nil, c => .ok (.nil, c)
  | .cons x xs, c =>
    match hTransform m x c with
    | .error e => .error e
    | .ok (tc, c2) =>
      match hTransformContent m xs c2 with
      | .error e => .error e
      | .ok (tcs, c3) =>
        match tc with
        | .obj _ gs =>
          (match hPyGet gs "type", hPyGet gs "content" with
           | some (.str "doc"), some (.arr _ inner) => .ok (inner.append tcs, c3)
           | _, _ => .ok (.cons tc tcs, c3))
        | _ => .ok (.cons tc tcs, c3)
end

/-- Instrumented trailing list item (eight fresh containers). -/
def hAttachmentListItem (name url : String) (c : Nat) : HVal × Nat :=
  (.obj (c+7) (.cons "type" (.str "listItem")
    (.cons "content" (.arr (c+6) (.cons (.obj (c+5) (.cons "type" (.str "paragraph")
      (.cons "content" (.arr (c+4) (.cons (.obj (c+3) (.cons "type" (.str "text")
        (.cons "text" (.str name)
          (.cons "marks" (.arr (c+2) (.cons (.obj (c+1) (.cons "type" (.str "link")
            (.cons "attrs" (.obj c (.cons "href" (.str url) .nil)) .nil))) .nil))
            .nil)))) .nil)) .nil))) .nil)) .nil)), c+8)

/-- Instrumented trailing items, one per mapping entry. -/
def hAttachmentItems : List (String × String) → Nat → HList × Nat
  | [], c => (.nil, c)
  | (name, url) :: rest, c =>
    let r1 := hAttachmentListItem name url c
    let r2 := hAttachmentItems rest r1.2
    (.cons r1.1 r2.1, r2.2)

/-- Instrumented trailing `bulletList`. -/
def hAttachmentsListNode (m : List (String × String)) (c : Nat) : HVal × Nat :=
  let r := hAttachmentItems m c
  (.obj (r.2+1) (.cons "type" (.str "bulletList")
    (.cons "content" (.arr r.2 r.1) .nil)), r.2+2)

/-- Instrumented trailing `"Attachments:"` paragraph. -/
def hAttachmentsHeader (c : Nat) : HVal × Nat :=
  (.obj (c+2) (.cons "type" (.str "paragraph")
    (.cons "content" (.arr (c+1) (.cons (.obj c (.cons "type" (.str "text")
      (.cons "text" (.str "Attachments:") .nil))) .nil)) .nil)), c+3)

/-- The two instrumented trailing nodes. -/
def hTrailingNodes (m : List (String × String)) (c : Nat) : HList × Nat :=
  let r1 := hAttachmentsHeader c
  let r2 := hAttachmentsListNode m r1.2
  (.cons r1.1 (.cons r2.1 .nil), r2.2)

/-- Instrumented `_adf_replace_media_with_attachment_links`: the post-pass
mutates the (freshly built) transformed root in place — the root dict and
its `content` list keep their identities while the two trailing nodes are
appended; when `content` is absent, `setdefault` installs a fresh list. -/
def hReplace (m : List (String × String)) (adf : HVal) (c : Nat) :
    Except PyErr (HVal × Nat) :=
  match hTransform m adf c with
  | .error e => .error e
  | .ok (t, c2) =>
    match t with
    | .obj j fs =>
      (match hPyGet fs "type" with
       | some (.str "doc") =>
         if ((m.map (fun p => p.2)).filter (fun u => u ≠ "")).isEmpty then
           .ok (.obj j fs, c2)
         else
           (match hPyGet fs "content" with
            | some (.arr j2 l) =>
              let r := hTrailingNodes m c2
              .ok (.obj j (hSetField fs "content" (.arr j2 (l.append r.1))), r.2)
            | some _ => .error .attributeError
            | none =>
              let r := hTrailingNodes m c2
              .ok (.obj j (fs.append (.cons "content" (.arr r.2 r.1) .nil)), r.2+1))
       | _ => .ok (.obj j fs, c2))
    | _ => .ok (t, c2)

theorem hlistInd (P : HList → Prop) (h0 : P .nil)
    (h1 : ∀ v tl, P tl → P (.cons v tl)) : ∀ l, P l
  | .nil => h0
  | .cons v tl => h1 v tl (hlistInd P h0 h1 tl)

theorem hfieldsInd (P : HFields → Prop) (h0 : P .nil)
    (h1 : ∀ k v tl, P tl → P (.cons k v tl)) : ∀ fs, P fs
  | .nil => h0
  | .cons k v tl => h1 k v tl (hfieldsInd P h0 h1 tl)

mutual
/-- Mutual induction over the instrumented family, dict values split by
list/non-list shape (matching `hTransformFields`). -/
def hvalIndV (P : HVal → Prop) (Q : HList → Prop) (R : HFields → Prop)
    (hstr : ∀ s, P (.str s)) (hnum : ∀ n, P (.num n))
    (hbool : ∀ b, P (.bool b)) (hnull : P .null)
    (harr : ∀ j l, Q l → P (.arr j l)) (hobj : ∀ j fs, R fs → P (.obj j fs))
    (hqnil : Q .nil) (hqcons : ∀ v tl, P v → Q tl → Q (.cons v tl))
    (hrnil : R .nil)
    (hrconsArr : ∀ k j l tl, Q l → R tl → R (.cons k (.arr j l) tl))
    (hrcons : ∀ k v tl, (∀ j l, v = .arr j l → False) → P v → R tl → R (.cons k v tl)) :
    ∀ v, P v
  | .str s => hstr s
  | .num n => hnum n
  | .bool b => hbool b
  | .null => hnull
  | .arr j l => harr j l (hvalIndL P Q R hstr hnum hbool hnull harr hobj hqnil hqcons hrnil hrconsArr hrcons l)
  | .obj j fs => hobj j fs (hvalIndF P Q R hstr hnum hbool hnull harr hobj hqnil hqcons hrnil hrconsArr hrcons fs)
/-- List part. -/
def hvalIndL (P : HVal → Prop) (Q : HList → Prop) (R : HFields → Prop)
    (hstr : ∀ s, P (.str s)) (hnum : ∀ n, P (.num n))
    (hbool : ∀ b, P (.bool b)) (hnull : P .null)
    (harr : ∀ j l, Q l → P (.arr j l)) (hobj : ∀ j fs, R fs → P (.obj j fs))
    (hqnil : Q .nil) (hqcons : ∀ v tl, P v → Q tl → Q (.cons v tl))
    (hrnil : R .nil)
    (hrconsArr : ∀ k j l tl, Q l → R tl → R (.cons k (.arr j l) tl))
    (hrcons : ∀ k v tl, (∀ j l, v = .arr j l → False) → P v → R tl → R (.cons k v tl)) :
    ∀ l, Q l
  | .nil => hqnil
  | .cons v tl =>
    hqcons v tl (hvalIndV P Q R hstr hnum hbool hnull harr hobj hqnil hqcons hrnil hrconsArr hrcons v)
      (hvalIndL P Q R hstr hnum hbool hnull harr hobj hqnil hqcons hrnil hrconsArr hrcons tl)
/-- Dict part. -/
def hvalIndF (P : HVal → Prop) (Q : HList → Prop) (R : HFields → Prop)
    (hstr : ∀ s, P (.str s)) (hnum : ∀ n, P (.num n))
    (hbool : ∀ b, P (.bool b)) (hnull : P .null)
    (harr : ∀ j l, Q l → P (.arr j l)) (hobj : ∀ j fs, R fs → P (.obj j fs))
    (hqnil : Q .nil) (hqcons : ∀ v tl, P v → Q tl → Q (.cons v tl))
    (hrnil : R .nil)
    (hrconsArr : ∀ k j l tl, Q l → R tl → R (.cons k (.arr j l) tl))
    (hrcons : ∀ k v tl, (∀ j l, v = .arr j l → False) → P v → R tl → R (.cons k v tl)) :
    ∀ fs, R fs
  | .nil => hrnil
  | .cons k (.arr j l) tl =>
    hrconsArr k j l tl (hvalIndL P Q R hstr hnum hbool hnull harr hobj hqnil hqcons hrnil hrconsArr hrcons l)
      (hvalIndF P Q R hstr hnum hbool hnull harr hobj hqnil hqcons hrnil hrconsArr hrcons tl)
  | .cons k (.str s) tl =>
    hrcons k (.str s) tl (fun _ _ h => nomatch h)
      (hvalIndV P Q R hstr hnum hbool hnull harr hobj hqnil hqcons hrnil hrconsArr hrcons (.str s))
      (hvalIndF P Q R hstr hnum hbool hnull harr hobj hqnil hqcons hrnil hrconsArr hrcons tl)
  | .cons k (.num n) tl =>
    hrcons k (.num n) tl (fun _ _ h => nomatch h)
      (hvalIndV P Q R hstr hnum hbool hnull harr hobj hqnil hqcons hrnil hrconsArr hrcons (.num n))
      (hvalIndF P Q R hstr hnum hbool hnull harr hobj hqnil hqcons hrnil hrconsArr hrcons tl)
  | .cons k (.bool b) tl =>
    hrcons k (.bool b) tl (fun _ _ h => nomatch h)
      (hvalIndV P Q R hstr hnum hbool hnull harr hobj hqnil hqcons hrnil hrconsArr hrcons (.bool b))
      (hvalIndF P Q R hstr hnum hbool hnull harr hobj hqnil hqcons hrnil hrconsArr hrcons tl)
  | .cons k .null tl =>
    hrcons k .null tl (fun _ _ h => nomatch h)
      (hvalIndV P Q R hstr hnum hbool hnull harr hobj hqnil hqcons hrnil hrconsArr hrcons .null)
      (hvalIndF P Q R hstr hnum hbool hnull harr hobj hqnil hqcons hrnil hrconsArr hrcons tl)
  | .cons k (.obj j fs2) tl =>
    hrcons k (.obj j fs2) tl (fun _ _ h => nomatch h)
      (hvalIndV P Q R hstr hnum hbool hnull harr hobj hqnil hqcons hrnil hrconsArr hrcons (.obj j fs2))
      (hvalIndF P Q R hstr hnum hbool hnull harr hobj hqnil hqcons hrnil hrconsArr hrcons tl)
end

/-- Packaged conclusions of the instrumented mutual induction. -/
theorem hval_mutual_ind (P : HVal → Prop) (Q : HList → Prop) (R : HFields → Prop)
    (hstr : ∀ s, P (.str s)) (hnum : ∀ n, P (.num n))
    (hbool : ∀ b, P (.bool b)) (hnull : P .null)
    (harr : ∀ j l, Q l → P (.arr j l)) (hobj : ∀ j fs, R fs → P (.obj j fs))
    (hqnil : Q .nil) (hqcons : ∀ v tl, P v → Q tl → Q (.cons v tl))
    (hrnil : R .nil)
    (hrconsArr : ∀ k j l tl, Q l → R tl → R (.cons k (.arr j l) tl))
    (hrcons : ∀ k v tl, (∀ j l, v = .arr j l → False) → P v → R tl → R (.cons k v tl)) :
    (∀ v, P v) ∧ (∀ l, Q l) ∧ (∀ fs, R fs) :=
  ⟨hvalIndV P Q R hstr hnum hbool hnull harr hobj hqnil hqcons hrnil hrconsArr hrcons,
   hvalIndL P Q R hstr hnum hbool hnull harr hobj hqnil hqcons hrnil hrconsArr hrcons,
   hvalIndF P Q R hstr hnum hbool hnull harr hobj hqnil hqcons hrnil hrconsArr hrcons⟩

theorem hLookupUrl_ok_noids (m : List (String × String)) (f : HVal)
    (r : Option String) (h : hLookupUrl m f = .ok r) : ∀ i, hasIdV i f = false := by
  cases f <;> simp_all [hLookupUrl, hasIdV]

theorem hMakeLinkParagraph_fresh (f : HVal) (url : Option String) (c : Nat)
    (hf : ∀ i, hasIdV i f = false) :
    c ≤ (hMakeLinkParagraph f url c).2 ∧
    ∀ i, hasIdV i (hMakeLinkParagraph f url c).1 = true →
      c ≤ i ∧ i < (hMakeLinkParagraph f url c).2 := by
  have htext : ∀ i, hasIdV i (if hTruthy f = true then f else .str "attachment") = false := by
    intro i
    split
    · exact hf i
    · rfl
  rcases url with _ | u
  · refine ⟨by simp [hMakeLinkParagraph], ?_⟩
    intro i hi
    simp only [hMakeLinkParagraph, hasIdV, hasIdL, hasIdF, htext,
      Bool.or_eq_true, decide_eq_true_eq, Bool.false_eq_true, false_or, or_false] at hi ⊢
    omega
  · by_cases hu : u = ""
    · subst hu
      refine ⟨by simp [hMakeLinkParagraph], ?_⟩
      intro i hi
      simp [hMakeLinkParagraph, hasIdV, hasIdL, hasIdF, htext] at hi ⊢
      omega
    · refine ⟨by simp [hMakeLinkParagraph, hu], ?_⟩
      intro i hi
      simp [hMakeLinkParagraph, hu, hasIdV, hasIdL, hasIdF, htext] at hi ⊢
      omega

theorem hTransformMediaItem_fresh (m : List (String × String)) (media : HVal)
    (c : Nat) (p : HVal) (c2 : Nat) (h : hTransformMediaItem m media c = .ok (p, c2)) :
    c ≤ c2 ∧ ∀ i, hasIdV i p = true → c ≤ i ∧ i < c2 := by
  unfold hTransformMediaItem at h
  rcases hg : hGetFilename media with e | filename
  · rw [hg] at h
    simp at h
  · rw [hg] at h
    dsimp only at h
    rcases hl : hLookupUrl m filename with e | url
    · rw [hl] at h
      simp at h
    · rw [hl] at h
      dsimp only at h
      have hfn : ∀ i, hasIdV i
          (if hTruthy filename = true then filename else .str "image") = false := by
        intro i
        split
        · exact hLookupUrl_ok_noids m filename url hl i
        · rfl
      have hfr := hMakeLinkParagraph_fresh
        (if hTruthy filename = true then filename else .str "image") url c hfn
      have hpair : hMakeLinkParagraph
          (if hTruthy filename = true then filename else .str "image") url c = (p, c2) :=
        Except.ok.inj h
      rw [hpair] at hfr
      exact hfr

theorem hEmptyParagraph_fresh (c : Nat) :
    c ≤ (hEmptyParagraph c).2 ∧
    ∀ i, hasIdV i (hEmptyParagraph c).1 = true →
      c ≤ i ∧ i < (hEmptyParagraph c).2 := by
  refine ⟨by simp [hEmptyParagraph], ?_⟩
  intro i hi
  simp only [hEmptyParagraph, hasIdV, hasIdL, hasIdF, Bool.or_eq_true,
    decide_eq_true_eq, Bool.false_eq_true, false_or, or_false] at hi ⊢
  omega

theorem hProcessGroup_fresh (m : List (String × String)) :
    ∀ l c ps c2, hProcessGroup m l c = .ok (ps, c2) →
      c ≤ c2 ∧ ∀ i, hasIdL i ps = true → c ≤ i ∧ i < c2 := by
  refine hlistInd _ ?_ ?_
  · intro c ps c2 h
    simp only [hProcessGroup, Except.ok.injEq, Prod.mk.injEq] at h
    obtain ⟨h1, h2⟩ := h
    subst h1
    subst h2
    exact ⟨le_refl c, fun i hi => by simp [hasIdL] at hi⟩
  · intro v tl ih c ps c2 h
    unfold hProcessGroup at h
    rcases hx : hTransformMediaItem m v c with e | pr
    · rw [hx] at h
      simp at h
    · rw [hx] at h
      dsimp only at h
      rcases pr with ⟨p, cp⟩
      rcases hr : hProcessGroup m tl cp with e | qr
      · rw [hr] at h
        simp at h
      · rw [hr] at h
        dsimp only at h
        rcases qr with ⟨qs, cq⟩
        have hinj := Except.ok.inj h
        have hps : ps = HList.cons p qs := (congrArg Prod.fst hinj).symm
        have hc2v : c2 = cq := (congrArg Prod.snd hinj).symm
        subst hps
        subst hc2v
        obtain ⟨hle1, hid1⟩ := hTransformMediaItem_fresh m v c p cp hx
        obtain ⟨hle2, hid2⟩ := ih cp qs _ hr
        refine ⟨le_trans hle1 hle2, ?_⟩
        intro i hi
        simp only [hasIdL, Bool.or_eq_true] at hi
        rcases hi with hi | hi
        · obtain ⟨ha, hb⟩ := hid1 i hi
          omega
        · obtain ⟨ha, hb⟩ := hid2 i hi
          omega

theorem hasIdL_append (i : Nat) (b : HList) :
    ∀ a, hasIdL i (HList.append a b) = (hasIdL i a || hasIdL i b) := by
  refine hlistInd _ ?_ ?_
  · simp [HList.append, hasIdL]
  · intro v tl ih
    simp [HList.append, hasIdL, ih, Bool.or_assoc]

theorem hPyGet_hasId (i : Nat) (k : String) (v : HVal) :
    ∀ fs, hPyGet fs k = some v → hasIdV i v = true → hasIdF i fs = true := by
  refine hfieldsInd _ ?_ ?_
  · intro hg
    simp [hPyGet] at hg
  · intro k2 w tl ih hg hv
    by_cases hk : k2 = k
    · rw [hPyGet, if_pos hk] at hg
      rw [← Option.some.inj hg] at hv
      simp [hasIdF, hv]
    · rw [hPyGet, if_neg hk] at hg
      simp [hasIdF, ih hg hv]

theorem hTransform_fresh (m : List (String × String)) :
    (∀ v, ∀ c u c2, hTransform m v c = .ok (u, c2) →
      c ≤ c2 ∧ ∀ i, hasIdV i u = true → c ≤ i ∧ i < c2) ∧
    (∀ l, (∀ c l2 c2, hTransformList m l c = .ok (l2, c2) →
        c ≤ c2 ∧ ∀ i, hasIdL i l2 = true → c ≤ i ∧ i < c2) ∧
      (∀ c l2 c2, hTransformContent m l c = .ok (l2, c2) →
        c ≤ c2 ∧ ∀ i, hasIdL i l2 = true → c ≤ i ∧ i < c2)) ∧
    (∀ fs, ∀ c gs c2, hTransformFields m fs c = .ok (gs, c2) →
      c ≤ c2 ∧ ∀ i, hasIdF i gs = true → c ≤ i ∧ i < c2) := by
  refine hval_mutual_ind
    (fun v => ∀ c u c2, hTransform m v c = .ok (u, c2) →
      c ≤ c2 ∧ ∀ i, hasIdV i u = true → c ≤ i ∧ i < c2)
    (fun l => (∀ c l2 c2, hTransformList m l c = .ok (l2, c2) →
        c ≤ c2 ∧ ∀ i, hasIdL i l2 = true → c ≤ i ∧ i < c2) ∧
      (∀ c l2 c2, hTransformContent m l c = .ok (l2, c2) →
        c ≤ c2 ∧ ∀ i, hasIdL i l2 = true → c ≤ i ∧ i < c2))
    (fun fs => ∀ c gs c2, hTransformFields m fs c = .ok (gs, c2) →
      c ≤ c2 ∧ ∀ i, hasIdF i gs = true → c ≤ i ∧ i < c2)
    ?_ ?_ ?_ ?_ ?_ ?_ ?_ ?_ ?_ ?_ ?_
  · intro s c u c2 h
    simp only [hTransform, Except.ok.injEq, Prod.mk.injEq] at h
    obtain ⟨h1, h2⟩ := h
    subst h1
    subst h2
    exact ⟨le_refl c, fun i hi => by simp [hasIdV] at hi⟩
  · intro n c u c2 h
    simp only [hTransform, Except.ok.injEq, Prod.mk.injEq] at h
    obtain ⟨h1, h2⟩ := h
    subst h1
    subst h2
    exact ⟨le_refl c, fun i hi => by simp [hasIdV] at hi⟩
  · intro b c u c2 h
    simp only [hTransform, Except.ok.injEq, Prod.mk.injEq] at h
    obtain ⟨h1, h2⟩ := h
    subst h1
    subst h2
    exact ⟨le_refl c, fun i hi => by simp [hasIdV] at hi⟩
  · intro c u c2 h
    simp only [hTransform, Except.ok.injEq, Prod.mk.injEq] at h
    obtain ⟨h1, h2⟩ := h
    subst h1
    subst h2
    exact ⟨le_refl c, fun i hi => by simp [hasIdV] at hi⟩
  · -- arr
    intro j l hQ c u c2 h
    unfold hTransform at h
    split at h
    · simp at h
    · rename_i x0 l2 cl hl2
      obtain ⟨hle, hid⟩ := hQ.1 c l2 cl hl2
      have hinj := Except.ok.inj h
      have hu : u = .arr cl l2 := (congrArg Prod.fst hinj).symm
      have hc : c2 = cl + 1 := (congrArg Prod.snd hinj).symm
      subst hu
      subst hc
      refine ⟨by omega, ?_⟩
      intro i hi
      simp only [hasIdV, Bool.or_eq_true, decide_eq_true_eq] at hi
      rcases hi with hi | hi
      · omega
      · obtain ⟨h1, h2⟩ := hid i hi
        omega
  · -- obj
    intro j fs hR c u c2 h
    unfold hTransform at h
    split at h
    · -- mediaSingle
      split at h
      · simp at h
      · exact hTransformMediaItem_fresh m _ c u c2 h
    · -- mediaGroup
      split at h
      · simp at h
      · split at h
        · simp at h
        · split at h
          · -- zero paragraphs
            rename_i x3 hty x2 its hits x1 cp x0 hproc
            obtain ⟨hle1, _⟩ := hProcessGroup_fresh m its c .nil cp hproc
            obtain ⟨hle2, hid2⟩ := hEmptyParagraph_fresh cp
            have hinj := Except.ok.inj h
            have hu : u = (hEmptyParagraph cp).1 := (congrArg Prod.fst hinj).symm
            have hc : c2 = (hEmptyParagraph cp).2 := (congrArg Prod.snd hinj).symm
            subst hu
            subst hc
            refine ⟨le_trans hle1 hle2, ?_⟩
            intro i hi
            obtain ⟨h1, h2⟩ := hid2 i hi
            omega
          · -- wrapper
            rename_i x3 hty x2 its hits x1 cp x0 p pr hproc
            obtain ⟨hle1, hid1⟩ := hProcessGroup_fresh m its c (.cons p pr) cp hproc
            have hinj := Except.ok.inj h
            have hu : u = .obj (cp+1) (.cons "type" (.str "doc")
                (.cons "version" (.num 1)
                  (.cons "content" (.arr cp (.cons p pr)) .nil))) :=
              (congrArg Prod.fst hinj).symm
            have hc : c2 = cp + 2 := (congrArg Prod.snd hinj).symm
            subst hu
            subst hc
            refine ⟨by omega, ?_⟩
            intro i hi
            simp only [hasIdV, hasIdF, hasIdL, Bool.or_eq_true, decide_eq_true_eq,
              Bool.false_eq_true, false_or, or_false] at hi
            rcases hi with hi | hi | hi
            · omega
            · omega
            · have hL : hasIdL i (HList.cons p pr) = true := by
                simp only [hasIdL, Bool.or_eq_true]
                exact hi
              obtain ⟨h1, h2⟩ := hid1 i hL
              omega
    · -- media
      exact hTransformMediaItem_fresh m _ c u c2 h
    · -- generic
      split at h
      · simp at h
      · rename_i hn1 hn2 hn3 x0 gs cg htf
        obtain ⟨hle, hid⟩ := hR c gs cg htf
        have hinj := Except.ok.inj h
        have hu : u = .obj cg gs := (congrArg Prod.fst hinj).symm
        have hc : c2 = cg + 1 := (congrArg Prod.snd hinj).symm
        subst hu
        subst hc
        refine ⟨by omega, ?_⟩
        intro i hi
        simp only [hasIdV, Bool.or_eq_true, decide_eq_true_eq] at hi
        rcases hi with hi | hi
        · omega
        · obtain ⟨h1, h2⟩ := hid i hi
          omega
  · -- list nil
    constructor
    · intro c l2 c2 h
      simp only [hTransformList, Except.ok.injEq, Prod.mk.injEq] at h
      obtain ⟨h1, h2⟩ := h
      subst h1
      subst h2
      exact ⟨le_refl c, fun i hi => by simp [hasIdL] at hi⟩
    · intro c l2 c2 h
      simp only [hTransformContent, Except.ok.injEq, Prod.mk.injEq] at h
      obtain ⟨h1, h2⟩ := h
      subst h1
      subst h2
      exact ⟨le_refl c, fun i hi => by simp [hasIdL] at hi⟩
  · -- list cons
    intro v tl hP hQ
    constructor
    · intro c l2 c2 h
      unfold hTransformList at h
      split at h
      · simp at h
      · rename_i x1 y cy hy
        split at h
        · simp at h
        · rename_i x0 ys cys hys
          obtain ⟨hle1, hid1⟩ := hP c y cy hy
          obtain ⟨hle2, hid2⟩ := hQ.1 cy ys cys hys
          have hinj := Except.ok.inj h
          have hu : l2 = .cons y ys := (congrArg Prod.fst hinj).symm
          have hc : c2 = cys := (congrArg Prod.snd hinj).symm
          subst hu
          subst hc
          refine ⟨by omega, ?_⟩
          intro i hi
          simp only [hasIdL, Bool.or_eq_true] at hi
          rcases hi with hi | hi
          · obtain ⟨h1, h2⟩ := hid1 i hi
            omega
          · obtain ⟨h1, h2⟩ := hid2 i hi
            omega
    · intro c l2 c2 h
      unfold hTransformContent at h
      split at h
      · simp at h
      · split at h
        · simp at h
        · split at h
          · -- tc is a dict
            split at h
            · -- splice
              rename_i x4 ct2 x3 tcs2 cts2 htcs2 x2 oid ofs htc2 y1 y0 j2 inner htyd hcond
              obtain ⟨hle3, hid3⟩ := hP c (.obj oid ofs) ct2 htc2
              obtain ⟨hle4, hid4⟩ := hQ.2 ct2 tcs2 cts2 htcs2
              have hinj := Except.ok.inj h
              have hu : l2 = inner.append tcs2 := (congrArg Prod.fst hinj).symm
              have hc : c2 = cts2 := (congrArg Prod.snd hinj).symm
              subst hu
              subst hc
              refine ⟨by omega, ?_⟩
              intro i hi
              rw [hasIdL_append] at hi
              simp only [Bool.or_eq_true] at hi
              rcases hi with hi | hi
              · have hIn : hasIdV i (.arr j2 inner) = true := by
                  simp [hasIdV, hi]
                have hIf : hasIdF i ofs = true :=
                  hPyGet_hasId i "content" _ ofs hcond hIn
                have hIo : hasIdV i (HVal.obj oid ofs) = true := by
                  simp [hasIdV, hIf]
                obtain ⟨h1, h2⟩ := hid3 i hIo
                omega
              · obtain ⟨h1, h2⟩ := hid4 i hi
                omega
            · -- dict, no splice
              rename_i x5 ct2 x4 tcs2 cts2 htcs2 x3 oid ofs htc2 y2 y1 hno
              obtain ⟨hle3, hid3⟩ := hP c (.obj oid ofs) ct2 htc2
              obtain ⟨hle4, hid4⟩ := hQ.2 ct2 tcs2 cts2 htcs2
              have hinj := Except.ok.inj h
              have hu : l2 = .cons (.obj oid ofs) tcs2 := (congrArg Prod.fst hinj).symm
              have hc : c2 = cts2 := (congrArg Prod.snd hinj).symm
              subst hu
              subst hc
              refine ⟨by omega, ?_⟩
              intro i hi
              simp only [hasIdL, Bool.or_eq_true] at hi
              rcases hi with hi | hi
              · obtain ⟨h1, h2⟩ := hid3 i hi
                omega
              · obtain ⟨h1, h2⟩ := hid4 i hi
                omega
          · -- not a dict
            rename_i x3 tc2 ct2 htc2 x2 tcs2 cts2 htcs2 x1 hnotobj
            obtain ⟨hle3, hid3⟩ := hP c tc2 ct2 htc2
            obtain ⟨hle4, hid4⟩ := hQ.2 ct2 tcs2 cts2 htcs2
            have hinj := Except.ok.inj h
            have hu : l2 = .cons tc2 tcs2 := (congrArg Prod.fst hinj).symm
            have hc : c2 = cts2 := (congrArg Prod.snd hinj).symm
            subst hu
            subst hc
            refine ⟨by omega, ?_⟩
            intro i hi
            simp only [hasIdL, Bool.or_eq_true] at hi
            rcases hi with hi | hi
            · obtain ⟨h1, h2⟩ := hid3 i hi
              omega
            · obtain ⟨h1, h2⟩ := hid4 i hi
              omega
  · -- fields nil
    intro c gs c2 h
    simp only [hTransformFields, Except.ok.injEq, Prod.mk.injEq] at h
    obtain ⟨h1, h2⟩ := h
    subst h1
    subst h2
    exact ⟨le_refl c, fun i hi => by simp [hasIdF] at hi⟩
  · -- fields cons, list value
    intro k j l tl hQ hR c gs c2 h
    unfold hTransformFields at h
    split at h
    · -- k = "content"
      rename_i hk
      split at h
      · simp at h
      · rename_i x1 l2 cl hcl
        split at h
        · simp at h
        · rename_i x0 tl2 ct htl
          obtain ⟨hle1, hid1⟩ := hQ.2 c l2 cl hcl
          obtain ⟨hle2, hid2⟩ := hR (cl+1) tl2 ct htl
          have hinj := Except.ok.inj h
          have hu : gs = .cons k (.arr cl l2) tl2 := (congrArg Prod.fst hinj).symm
          have hc : c2 = ct := (congrArg Prod.snd hinj).symm
          subst hu
          subst hc
          refine ⟨by omega, ?_⟩
          intro i hi
          simp only [hasIdF, hasIdV, Bool.or_eq_true, decide_eq_true_eq] at hi
          rcases hi with (hi | hi) | hi
          · omega
          · obtain ⟨h1, h2⟩ := hid1 i hi
            omega
          · obtain ⟨h1, h2⟩ := hid2 i hi
            omega
    · -- other key with list value
      rename_i hk
      split at h
      · simp at h
      · rename_i x1 l2 cl hcl
        split at h
        · simp at h
        · rename_i x0 tl2 ct htl
          obtain ⟨hle1, hid1⟩ := hQ.1 c l2 cl hcl
          obtain ⟨hle2, hid2⟩ := hR (cl+1) tl2 ct htl
          have hinj := Except.ok.inj h
          have hu : gs = .cons k (.arr cl l2) tl2 := (congrArg Prod.fst hinj).symm
          have hc : c2 = ct := (congrArg Prod.snd hinj).symm
          subst hu
          subst hc
          refine ⟨by omega, ?_⟩
          intro i hi
          simp only [hasIdF, hasIdV, Bool.or_eq_true, decide_eq_true_eq] at hi
          rcases hi with (hi | hi) | hi
          · omega
          · obtain ⟨h1, h2⟩ := hid1 i hi
            omega
          · obtain ⟨h1, h2⟩ := hid2 i hi
            omega
  · -- fields cons, non-list value
    intro k v tl hv hP hR c gs c2 h
    rcases v with s | n | b | _ | ⟨jj, ll⟩ | ⟨oi2, fs2⟩
    · unfold hTransformFields at h
      split at h
      · simp at h
      · rename_i x1 w cw hw
        split at h
        · simp at h
        · rename_i x0 tl2 ct htl
          obtain ⟨hle1, hid1⟩ := hP c w cw hw
          obtain ⟨hle2, hid2⟩ := hR cw tl2 ct htl
          have hinj := Except.ok.inj h
          have hu : gs = .cons k w tl2 := (congrArg Prod.fst hinj).symm
          have hc : c2 = ct := (congrArg Prod.snd hinj).symm
          subst hu
          subst hc
          refine ⟨by omega, ?_⟩
          intro i hi
          simp only [hasIdF, Bool.or_eq_true] at hi
          rcases hi with hi | hi
          · obtain ⟨h1, h2⟩ := hid1 i hi
            omega
          · obtain ⟨h1, h2⟩ := hid2 i hi
            omega
    · unfold hTransformFields at h
      split at h
      · simp at h
      · rename_i x1 w cw hw
        split at h
        · simp at h
        · rename_i x0 tl2 ct htl
          obtain ⟨hle1, hid1⟩ := hP c w cw hw
          obtain ⟨hle2, hid2⟩ := hR cw tl2 ct htl
          have hinj := Except.ok.inj h
          have hu : gs = .cons k w tl2 := (congrArg Prod.fst hinj).symm
          have hc : c2 = ct := (congrArg Prod.snd hinj).symm
          subst hu
          subst hc
          refine ⟨by omega, ?_⟩
          intro i hi
          simp only [hasIdF, Bool.or_eq_true] at hi
          rcases hi with hi | hi
          · obtain ⟨h1, h2⟩ := hid1 i hi
            omega
          · obtain ⟨h1, h2⟩ := hid2 i hi
            omega
    · unfold hTransformFields at h
      split at h
      · simp at h
      · rename_i x1 w cw hw
        split at h
        · simp at h
        · rename_i x0 tl2 ct htl
          obtain ⟨hle1, hid1⟩ := hP c w cw hw
          obtain ⟨hle2, hid2⟩ := hR cw tl2 ct htl
          have hinj := Except.ok.inj h
          have hu : gs = .cons k w tl2 := (congrArg Prod.fst hinj).symm
          have hc : c2 = ct := (congrArg Prod.snd hinj).symm
          subst hu
          subst hc
          refine ⟨by omega, ?_⟩
          intro i hi
          simp only [hasIdF, Bool.or_eq_true] at hi
          rcases hi with hi | hi
          · obtain ⟨h1, h2⟩ := hid1 i hi
            omega
          · obtain ⟨h1, h2⟩ := hid2 i hi
            omega
    · unfold hTransformFields at h
      split at h
      · simp at h
      · rename_i x1 w cw hw
        split at h
        · simp at h
        · rename_i x0 tl2 ct htl
          obtain ⟨hle1, hid1⟩ := hP c w cw hw
          obtain ⟨hle2, hid2⟩ := hR cw tl2 ct htl
          have hinj := Except.ok.inj h
          have hu : gs = .cons k w tl2 := (congrArg Prod.fst hinj).symm
          have hc : c2 = ct := (congrArg Prod.snd hinj).symm
          subst hu
          subst hc
          refine ⟨by omega, ?_⟩
          intro i hi
          simp only [hasIdF, Bool.or_eq_true] at hi
          rcases hi with hi | hi
          · obtain ⟨h1, h2⟩ := hid1 i hi
            omega
          · obtain ⟨h1, h2⟩ := hid2 i hi
            omega
    · exact absurd rfl (hv jj ll)
    · unfold hTransformFields at h
      split at h
      · simp at h
      · rename_i x1 w cw hw
        split at h
        · simp at h
        · rename_i x0 tl2 ct htl
          obtain ⟨hle1, hid1⟩ := hP c w cw hw
          obtain ⟨hle2, hid2⟩ := hR cw tl2 ct htl
          have hinj := Except.ok.inj h
          have hu : gs = .cons k w tl2 := (congrArg Prod.fst hinj).symm
          have hc : c2 = ct := (congrArg Prod.snd hinj).symm
          subst hu
          subst hc
          refine ⟨by omega, ?_⟩
          intro i hi
          simp only [hasIdF, Bool.or_eq_true] at hi
          rcases hi with hi | hi
          · obtain ⟨h1, h2⟩ := hid1 i hi
            omega
          · obtain ⟨h1, h2⟩ := hid2 i hi
            omega

mutual
/-- Largest container identity occurring in a value (0 when none). -/
def maxIdV : HVal → Nat
  | .arr j l => max j (maxIdL l)
  | .obj j fs => max j (maxIdF fs)
  | _ => 0
/-- `maxIdV` over list elements. -/
def maxIdL : HList → Nat
  | .nil => 0
  | .cons v tl => max (maxIdV v) (maxIdL tl)
/-- `maxIdV` over dict values. -/
def maxIdF : HFields → Nat
  | .nil => 0
  | .cons _ v tl => max (maxIdV v) (maxIdF tl)
end

theorem hasId_le_maxId :
    (∀ v, ∀ i, hasIdV i v = true → i ≤ maxIdV v) ∧
    (∀ l, ∀ i, hasIdL i l = true → i ≤ maxIdL l) ∧
    (∀ fs, ∀ i, hasIdF i fs = true → i ≤ maxIdF fs) := by
  refine hval_mutual_ind
    (fun v => ∀ i, hasIdV i v = true → i ≤ maxIdV v)
    (fun l => ∀ i, hasIdL i l = true → i ≤ maxIdL l)
    (fun fs => ∀ i, hasIdF i fs = true → i ≤ maxIdF fs)
    ?_ ?_ ?_ ?_ ?_ ?_ ?_ ?_ ?_ ?_ ?_
  · intro s i hi
    simp [hasIdV] at hi
  · intro n i hi
    simp [hasIdV] at hi
  · intro b i hi
    simp [hasIdV] at hi
  · intro i hi
    simp [hasIdV] at hi
  · intro j l ih i hi
    simp only [hasIdV, Bool.or_eq_true, decide_eq_true_eq] at hi
    rcases hi with hi | hi
    · simp [maxIdV, hi]
    · have := ih i hi
      simp only [maxIdV]
      omega
  · intro j fs ih i hi
    simp only [hasIdV, Bool.or_eq_true, decide_eq_true_eq] at hi
    rcases hi with hi | hi
    · simp [maxIdV, hi]
    · have := ih i hi
      simp only [maxIdV]
      omega
  · intro i hi
    simp [hasIdL] at hi
  · intro v tl ihv ihl i hi
    simp only [hasIdL, Bool.or_eq_true] at hi
    simp only [maxIdL]
    rcases hi with hi | hi
    · have := ihv i hi
      omega
    · have := ihl i hi
      omega
  · intro i hi
    simp [hasIdF] at hi
  · intro k j l tl ihl ihf i hi
    simp only [hasIdF, Bool.or_eq_true] at hi
    simp only [maxIdF]
    rcases hi with hi | hi
    · simp only [hasIdV, Bool.or_eq_true, decide_eq_true_eq] at hi
      simp only [maxIdV]
      rcases hi with hi | hi
      · omega
      · have := ihl i hi
        omega
    · have := ihf i hi
      omega
  · intro k v tl hv ihv ihf i hi
    simp only [hasIdF, Bool.or_eq_true] at hi
    simp only [maxIdF]
    rcases hi with hi | hi
    · have := ihv i hi
      omega
    · have := ihf i hi
      omega

theorem hasIdF_append (i : Nat) (b : HFields) :
    ∀ a, hasIdF i (HFields.append a b) = (hasIdF i a || hasIdF i b) := by
  refine hfieldsInd _ ?_ ?_
  · simp [HFields.append, hasIdF]
  · intro k v tl ih
    simp [HFields.append, hasIdF, ih, Bool.or_assoc]

theorem hasIdF_setField (i : Nat) (k : String) (w : HVal) :
    ∀ fs, hasIdF i (hSetField fs k w) = true →
      hasIdF i fs = true ∨ hasIdV i w = true := by
  refine hfieldsInd _ ?_ ?_
  · intro h
    simp [hSetField, hasIdF] at h
  · intro k2 v tl ih h
    by_cases hk : k2 = k
    · rw [hSetField, if_pos hk] at h
      simp only [hasIdF, Bool.or_eq_true] at h
      rcases h with h | h
      · exact Or.inr h
      · exact Or.inl (by simp [hasIdF, h])
    · rw [hSetField, if_neg hk] at h
      simp only [hasIdF, Bool.or_eq_true] at h
      rcases h with h | h
      · exact Or.inl (by simp [hasIdF, h])
      · rcases ih h with h2 | h2
        · exact Or.inl (by simp [hasIdF, h2])
        · exact Or.inr h2

theorem hAttachmentListItem_fresh (name url : String) (c : Nat) :
    (hAttachmentListItem name url c).2 = c + 8 ∧
    ∀ i, hasIdV i (hAttachmentListItem name url c).1 = true → c ≤ i ∧ i < c + 8 := by
  refine ⟨rfl, ?_⟩
  intro i hi
  simp only [hAttachmentListItem, hasIdV, hasIdL, hasIdF, Bool.or_eq_true,
    decide_eq_true_eq, Bool.false_eq_true, false_or, or_false] at hi
  omega

theorem hAttachmentItems_fresh :
    ∀ (m : List (String × String)) (c : Nat) (ps : HList) (c2 : Nat),
      hAttachmentItems m c = (ps, c2) →
      c ≤ c2 ∧ ∀ i, hasIdL i ps = true → c ≤ i ∧ i < c2 := by
  intro m
  induction m with
  | nil =>
    intro c ps c2 h
    simp only [hAttachmentItems, Prod.mk.injEq] at h
    obtain ⟨h1, h2⟩ := h
    subst h1
    subst h2
    exact ⟨le_refl c, fun i hi => by simp [hasIdL] at hi⟩
  | cons p rest ih =>
    intro c ps c2 h
    rcases p with ⟨name, url⟩
    simp only [hAttachmentItems, Prod.mk.injEq] at h
    obtain ⟨h1, h2⟩ := h
    obtain ⟨hq1, hq2⟩ := hAttachmentListItem_fresh name url c
    rcases hr : hAttachmentItems rest (hAttachmentListItem name url c).2 with ⟨qs, cq⟩
    obtain ⟨hr1, hr2⟩ := ih (hAttachmentListItem name url c).2 qs cq hr
    rw [hr] at h1 h2
    subst h1
    subst h2
    refine ⟨by omega, ?_⟩
    intro i hi
    simp only [hasIdL, Bool.or_eq_true] at hi
    rcases hi with hi | hi
    · obtain ⟨ha, hb⟩ := hq2 i hi
      omega
    · obtain ⟨ha, hb⟩ := hr2 i hi
      omega

theorem hTrailingNodes_fresh (m : List (String × String)) (c : Nat) (ns : HList)
    (c2 : Nat) (h : hTrailingNodes m c = (ns, c2)) :
    c ≤ c2 ∧ ∀ i, hasIdL i ns = true → c ≤ i ∧ i < c2 := by
  simp only [hTrailingNodes, hAttachmentsListNode, hAttachmentsHeader,
    Prod.mk.injEq] at h
  obtain ⟨h1, h2⟩ := h
  rcases hr : hAttachmentItems m (c + 3) with ⟨its, ci⟩
  obtain ⟨hr1, hr2⟩ := hAttachmentItems_fresh m (c + 3) its ci hr
  rw [hr] at h1 h2
  subst h1
  subst h2
  refine ⟨by omega, ?_⟩
  intro i hi
  simp only [hasIdL, hasIdV, hasIdF, Bool.or_eq_true, decide_eq_true_eq,
    Bool.false_eq_true, false_or, or_false] at hi
  rcases hi with (hi | hi | hi) | (hi | hi | hi) <;>
    first
      | omega
      | (obtain ⟨ha, hb⟩ := hr2 i hi; omega)
theorem hReplace_fresh (m : List (String × String)) (adf : HVal) (c : Nat)
    (u : HVal) (c2 : Nat) (h : hReplace m adf c = .ok (u, c2)) :
    c ≤ c2 ∧ ∀ i, hasIdV i u = true → c ≤ i ∧ i < c2 := by
  unfold hReplace at h
  rcases ht : hTransform m adf c with e | ⟨t, ct⟩
  · rw [ht] at h
    simp at h
  · rw [ht] at h
    dsimp only at h
    obtain ⟨hle, hid⟩ := (hTransform_fresh m).1 adf c t ct ht
    rcases t with s | n | b | _ | ⟨j, l0⟩ | ⟨j, fs⟩
    · have hinj := Except.ok.inj h
      have hu : u = HVal.str s := (congrArg Prod.fst hinj).symm
      have hc : c2 = ct := (congrArg Prod.snd hinj).symm
      subst hu
      subst hc
      exact ⟨hle, hid⟩
    · have hinj := Except.ok.inj h
      have hu : u = HVal.num n := (congrArg Prod.fst hinj).symm
      have hc : c2 = ct := (congrArg Prod.snd hinj).symm
      subst hu
      subst hc
      exact ⟨hle, hid⟩
    · have hinj := Except.ok.inj h
      have hu : u = HVal.bool b := (congrArg Prod.fst hinj).symm
      have hc : c2 = ct := (congrArg Prod.snd hinj).symm
      subst hu
      subst hc
      exact ⟨hle, hid⟩
    · have hinj := Except.ok.inj h
      have hu : u = HVal.null := (congrArg Prod.fst hinj).symm
      have hc : c2 = ct := (congrArg Prod.snd hinj).symm
      subst hu
      subst hc
      exact ⟨hle, hid⟩
    · have hinj := Except.ok.inj h
      have hu : u = HVal.arr j l0 := (congrArg Prod.fst hinj).symm
      have hc : c2 = ct := (congrArg Prod.snd hinj).symm
      subst hu
      subst hc
      exact ⟨hle, hid⟩
    · have hidj : c ≤ j ∧ j < ct := hid j (by simp [hasIdV])
      have hidf : ∀ i, hasIdF i fs = true → c ≤ i ∧ i < ct := by
        intro i hi
        exact hid i (by simp [hasIdV, hi])
      dsimp only at h
      split at h
      · split at h
        · have hinj := Except.ok.inj h
          have hu : u = HVal.obj j fs := (congrArg Prod.fst hinj).symm
          have hc : c2 = ct := (congrArg Prod.snd hinj).symm
          subst hu
          subst hc
          exact ⟨hle, hid⟩
        · split at h
          · rename_i j2 l heq2
            rcases hr : hTrailingNodes m ct with ⟨ns, cn⟩
            rw [hr] at h
            dsimp only at h
            obtain ⟨htn1, htn2⟩ := hTrailingNodes_fresh m ct ns cn hr
            have hinj := Except.ok.inj h
            have hu : u = HVal.obj j
                (hSetField fs "content" (.arr j2 (HList.append l ns))) :=
              (congrArg Prod.fst hinj).symm
            have hc : c2 = cn := (congrArg Prod.snd hinj).symm
            subst hu
            subst hc
            refine ⟨by omega, ?_⟩
            intro i hi
            simp only [hasIdV, Bool.or_eq_true, decide_eq_true_eq] at hi
            rcases hi with hi | hi
            · omega
            · rcases hasIdF_setField i "content"
                (.arr j2 (HList.append l ns)) fs hi with h2 | h2
              · have := hidf i h2
                omega
              · simp only [hasIdV, hasIdL_append, Bool.or_eq_true,
                  decide_eq_true_eq] at h2
                rcases h2 with h2 | h2 | h2
                · subst h2
                  have : hasIdF i fs = true :=
                    hPyGet_hasId i "content" (.arr i l) fs heq2 (by simp [hasIdV])
                  have := hidf i this
                  omega
                · have : hasIdF i fs = true :=
                    hPyGet_hasId i "content" (.arr j2 l) fs heq2
                      (by simp [hasIdV, h2])
                  have := hidf i this
                  omega
                · have := htn2 i h2
                  omega
          · rename_i heq2
            simp at h
          · rename_i heq2
            rcases hr : hTrailingNodes m ct with ⟨ns, cn⟩
            rw [hr] at h
            dsimp only at h
            obtain ⟨htn1, htn2⟩ := hTrailingNodes_fresh m ct ns cn hr
            have hinj := Except.ok.inj h
            have hu : u = HVal.obj j
                (HFields.append fs (.cons "content" (.arr cn ns) .nil)) :=
              (congrArg Prod.fst hinj).symm
            have hc : c2 = cn + 1 := (congrArg Prod.snd hinj).symm
            subst hu
            subst hc
            refine ⟨by omega, ?_⟩
            intro i hi
            simp only [hasIdV, hasIdF_append, hasIdF, hasIdL, Bool.or_eq_true,
              decide_eq_true_eq, Bool.false_eq_true, false_or, or_false] at hi
            rcases hi with hi | hi | hi | hi
            · omega
            · have := hidf i hi
              omega
            · omega
            · have := htn2 i hi
              omega
      · have hinj := Except.ok.inj h
        have hu : u = HVal.obj j fs := (congrArg Prod.fst hinj).symm
        have hc : c2 = ct := (congrArg Prod.snd hinj).symm
        subst hu
        subst hc
        exact ⟨hle, hid⟩


/-- Concrete attachment mapping for the C8 witness run. -/
def c8m : List (String × String) := [("a.png", "http://example/a.png")]

/-- Concrete input document for the C8 witness run: a `doc` containing one
`mediaSingle` wrapping a `media` node, with container identities 0–5. -/
def c8adf : HVal :=
  .obj 0 (.cons "type" (.str "doc")
    (.cons "content" (.arr 1 (.cons
      (.obj 2 (.cons "type" (.str "mediaSingle")
        (.cons "content" (.arr 3 (.cons
          (.obj 4 (.cons "type" (.str "media")
            (.cons "attrs" (.obj 5 (.cons "fileName" (.str "a.png") .nil)) .nil)))
          .nil)) .nil))) .nil)) .nil))

/-- Output document of the C8 witness run (allocation counter starts at 6). -/
def c8out : HVal := ((hReplace c8m c8adf 6).toOption.getD (.null, 0)).1

/-- Final allocation counter of the C8 witness run. -/
def c8ctr : Nat := ((hReplace c8m c8adf 6).toOption.getD (.null, 0)).2

/-- C8: `_adf_replace_media_with_attachment_links` never mutates its input
document. In the allocation-instrumented model every dict and list carries the
identity it was allocated with; when all identities of the input lie below the
allocation counter, every container of a successful output is freshly
allocated, so the output shares no container with the input — in particular
the in-place post-pass (`setdefault`/`append`) only ever touches containers
built by `transform`, never the caller's document. -/
theorem claim_C8_no_input_mutation (m : List (String × String)) (adf u : HVal)
    (c c2 : Nat) (hin : maxIdV adf < c) (h : hReplace m adf c = .ok (u, c2)) :
    ∀ i, hasIdV i u = true → hasIdV i adf = false := by
  intro i hi
  obtain ⟨hle, hid⟩ := hReplace_fresh m adf c u c2 h
  obtain ⟨h1, h2⟩ := hid i hi
  cases hb : hasIdV i adf
  · rfl
  · have := hasId_le_maxId.1 adf i hb
    omega

/-- C8 witness: on a concrete one-media document whose containers carry
identities 0–5 and a counter starting at 6, identity 6 belongs to the output
(so the instantiation is not vacuous) yet to no container of the input. -/
theorem claim_C8_witness :
    maxIdV c8adf < 6 ∧ hasIdV 6 c8out = true ∧ hasIdV 6 c8adf = false :=
  ⟨by decide, by decide,
   claim_C8_no_input_mutation c8m c8adf c8out 6 c8ctr (by decide) rfl 6 (by decide)⟩
